import Mathlib

/-!
Verification of the clockwork worklog ledger engine (Techthos/clockwork).

Shallow embedding conventions:
* Go `time.Time` values are modelled as `Int` nanoseconds since the epoch;
  `t1.Before(t2)` is `t1 < t2` and `t1.After(t2)` is `t2 < t1`, and
  `time.Duration` subtraction is integer subtraction of nanoseconds.
* Go `int64` is modelled as `Int` (no overflow is exercised by the claims).
* Go strings are modelled as Lean `String`; commit hashes and duration
  strings are ASCII, so byte indexing coincides with character indexing.
* float64 decimal arithmetic in the duration parser is modelled exactly by
  scaled decimal integers (`Dec`): a value `num / 10 ^ scale`.  The parser
  only ever produces decimal literals small enough that float64 rounding
  cannot change any of the compared or truncated results in the claims.
* The bbolt store is modelled as in-memory lists of records; storage I/O
  failures are outside the pure model, so operations whose only Go error
  source is bbolt itself always return `.ok`.  Fallible operations return
  `Except String`.
-/

namespace Clockwork

/-- Project record, from internal/models/models.go. -/
structure Project where
  ID : String
  Name : String
  GitRepoPath : String
  CreatedAt : Int
  UpdatedAt : Int
deriving DecidableEq, Repr

/-- Entry record, from internal/models/models.go.  `Duration` is minutes. -/
structure Entry where
  ID : String
  ProjectID : String
  Duration : Int
  Message : String
  CommitHash : String
  Invoiced : Bool
  CreatedAt : Int
  UpdatedAt : Int
deriving DecidableEq, Repr

/-- Commit metadata, from internal/models/models.go. -/
structure CommitInfo where
  Hash : String
  Author : String
  Message : String
  Timestamp : Int
deriving DecidableEq, Repr

/-- The two bbolt buckets of internal/db/store.go, modelled as lists. -/
structure Store where
  projects : List Project
  entries : List Entry
deriving DecidableEq, Repr

/-- GetProject, store.go lines 89 to 106: lookup by id, error when absent. -/
def GetProject (s : Store) (id : String) : Except String Project :=
  match s.projects.find? (fun p => p.ID = id) with
  | none => .error "project not found"
  | some p => .ok p

/-- The per-entry filter conditions of ListEntriesFiltered, store.go lines
398 to 414: project match (empty means all), inclusive date bounds on
`CreatedAt`, and exact invoiced match when the filter is present.  The
function returns `false` exactly when one of the early `return nil`
branches of the Go loop body skips the entry. -/
def entryKeep (projectID : String) (startDate endDate : Option Int)
    (invoicedFilter : Option Bool) (e : Entry) : Bool :=
  if projectID ≠ "" ∧ e.ProjectID ≠ projectID then false
  else if (match startDate with | some sd => decide (e.CreatedAt < sd) | none => false) then false
  else if (match endDate with | some ed => decide (ed < e.CreatedAt) | none => false) then false
  else if (match invoicedFilter with | some f => decide (e.Invoiced ≠ f) | none => false) then false
  else true

/-- ListEntriesFiltered, store.go lines 383 to 426: full scan keeping the
entries that pass every filter dimension, in bucket order. -/
def ListEntriesFiltered (s : Store) (projectID : String)
    (startDate endDate : Option Int) (invoicedFilter : Option Bool) : List Entry :=
  s.entries.filter (entryKeep projectID startDate endDate invoicedFilter)

/-- ListEntries, store.go lines 336 to 358: all entries of one project. -/
def ListEntries (s : Store) (projectID : String) : List Entry :=
  s.entries.filter (fun e => e.ProjectID = projectID)

/-- C5: for every stored entry set and every filter, an entry appears in the
result of listEntriesFiltered iff the project filter is empty or matches, the
entry is not dated strictly before the start bound nor strictly after the end
bound, and the invoiced filter is absent or matches exactly. -/
theorem listEntriesFiltered_mem_iff (s : Store) (projectID : String)
    (startDate endDate : Option Int) (invoicedFilter : Option Bool) (e : Entry) :
    e ∈ ListEntriesFiltered s projectID startDate endDate invoicedFilter ↔
      e ∈ s.entries ∧
      (projectID = "" ∨ e.ProjectID = projectID) ∧
      (∀ sd, startDate = some sd → ¬ e.CreatedAt < sd) ∧
      (∀ ed, endDate = some ed → ¬ ed < e.CreatedAt) ∧
      (∀ f, invoicedFilter = some f → e.Invoiced = f) := by
  rw [ListEntriesFiltered, List.mem_filter, and_congr_right_iff]
  intro _
  unfold entryKeep
  rcases startDate with _ | sd <;> rcases endDate with _ | ed <;>
    rcases invoicedFilter with _ | f <;>
    simp only [ne_eq] <;> split_ifs <;>
    simp_all <;> tauto

theorem listEntriesFiltered_mem_iff_witness :
    ({ ID := "e1", ProjectID := "p1", Duration := 60, Message := "m",
       CommitHash := "", Invoiced := false, CreatedAt := 5, UpdatedAt := 9 } : Entry) ∈
      ListEntriesFiltered
        ⟨[], [{ ID := "e1", ProjectID := "p1", Duration := 60, Message := "m",
                CommitHash := "", Invoiced := false, CreatedAt := 5, UpdatedAt := 9 }]⟩
        "p1" (some 1) (some 9) (some false) :=
  (listEntriesFiltered_mem_iff _ _ _ _ _ _).mpr
    ⟨by simp, Or.inr rfl,
     fun sd h => by cases h; decide,
     fun ed h => by cases h; decide,
     fun f h => by cases h; rfl⟩

/-- Statistics record, store.go lines 429 to 438.  The Go
`map[string]int64` breakdown is modelled as a total function that is zero
outside the touched keys, matching Go map reads of absent keys.
`TotalHours` (float64) is modelled as an exact rational. -/
structure Statistics where
  TotalMinutes : Int
  TotalHours : ℚ
  EntryCount : Nat
  InvoicedMinutes : Int
  UninvoicedMinutes : Int
  ProjectBreakdown : String → Int
  EarliestEntry : Option Int
  LatestEntry : Option Int

/-- The zero-valued statistics Go starts from (store.go lines 442 to 444). -/
def initStats : Statistics :=
  { TotalMinutes := 0, TotalHours := 0, EntryCount := 0, InvoicedMinutes := 0,
    UninvoicedMinutes := 0, ProjectBreakdown := fun _ => 0,
    EarliestEntry := none, LatestEntry := none }

/-- One iteration of the GetStatistics scan, store.go lines 452 to 500: the
same four skip conditions as ListEntriesFiltered, then the aggregation
updates. -/
def statStep (projectID : String) (startDate endDate : Option Int)
    (invoicedFilter : Option Bool) (stats : Statistics) (e : Entry) : Statistics :=
  if projectID ≠ "" ∧ e.ProjectID ≠ projectID then stats
  else if (match startDate with | some sd => decide (e.CreatedAt < sd) | none => false) then stats
  else if (match endDate with | some ed => decide (ed < e.CreatedAt) | none => false) then stats
  else if (match invoicedFilter with | some f => decide (e.Invoiced ≠ f) | none => false) then stats
  else
    { stats with
      TotalMinutes := stats.TotalMinutes + e.Duration
      EntryCount := stats.EntryCount + 1
      InvoicedMinutes :=
        if e.Invoiced then stats.InvoicedMinutes + e.Duration else stats.InvoicedMinutes
      UninvoicedMinutes :=
        if e.Invoiced then stats.UninvoicedMinutes else stats.UninvoicedMinutes + e.Duration
      ProjectBreakdown := fun p =>
        if p = e.ProjectID then stats.ProjectBreakdown p + e.Duration
        else stats.ProjectBreakdown p
      EarliestEntry :=
        match stats.EarliestEntry with
        | none => some e.CreatedAt
        | some t => if e.CreatedAt < t then some e.CreatedAt else some t
      LatestEntry :=
        match stats.LatestEntry with
        | none => some e.CreatedAt
        | some t => if t < e.CreatedAt then some e.CreatedAt else some t }

/-- GetStatistics, store.go lines 441 to 509: one guarded pass over the
entries bucket, then `TotalHours := TotalMinutes / 60`. -/
def GetStatistics (s : Store) (projectID : String) (startDate endDate : Option Int)
    (invoicedFilter : Option Bool) : Statistics :=
  let st := s.entries.foldl (statStep projectID startDate endDate invoicedFilter) initStats
  { st with TotalHours := (st.TotalMinutes : ℚ) / 60 }

/-- Running minimum over `Option Int`, as the EarliestEntry update writes it. -/
def optMinStep (o : Option Int) (t : Int) : Option Int :=
  match o with
  | none => some t
  | some u => if t < u then some t else some u

/-- Running maximum over `Option Int`, as the LatestEntry update writes it. -/
def optMaxStep (o : Option Int) (t : Int) : Option Int :=
  match o with
  | none => some t
  | some u => if u < t then some t else some u

/-- The unguarded aggregation update: what statStep does to an entry that
passes every filter. -/
def applyEntry (stats : Statistics) (e : Entry) : Statistics :=
  { stats with
    TotalMinutes := stats.TotalMinutes + e.Duration
    EntryCount := stats.EntryCount + 1
    InvoicedMinutes :=
      if e.Invoiced then stats.InvoicedMinutes + e.Duration else stats.InvoicedMinutes
    UninvoicedMinutes :=
      if e.Invoiced then stats.UninvoicedMinutes else stats.UninvoicedMinutes + e.Duration
    ProjectBreakdown := fun p =>
      if p = e.ProjectID then stats.ProjectBreakdown p + e.Duration
      else stats.ProjectBreakdown p
    EarliestEntry := optMinStep stats.EarliestEntry e.CreatedAt
    LatestEntry := optMaxStep stats.LatestEntry e.CreatedAt }

lemma statStep_eq_applyEntry (projectID : String) (startDate endDate : Option Int)
    (invoicedFilter : Option Bool) (stats : Statistics) (e : Entry) :
    statStep projectID startDate endDate invoicedFilter stats e =
      if entryKeep projectID startDate endDate invoicedFilter e then applyEntry stats e
      else stats := by
  unfold statStep entryKeep applyEntry optMinStep optMaxStep
  split_ifs <;> simp_all

lemma foldl_guard_filter {α β : Type} (p : β → Bool) (f : α → β → α) (l : List β) (acc : α) :
    l.foldl (fun a b => if p b then f a b else a) acc = (l.filter p).foldl f acc := by
  induction l generalizing acc with
  | nil => rfl
  | cons x xs ih =>
    by_cases h : p x <;> simp [List.filter_cons, h, ih]

lemma foldl_statStep_filter (projectID : String) (startDate endDate : Option Int)
    (invoicedFilter : Option Bool) (l : List Entry) (acc : Statistics) :
    l.foldl (statStep projectID startDate endDate invoicedFilter) acc =
      (l.filter (entryKeep projectID startDate endDate invoicedFilter)).foldl applyEntry acc := by
  rw [← foldl_guard_filter]
  congr 1
  funext stats e
  exact statStep_eq_applyEntry projectID startDate endDate invoicedFilter stats e

lemma applyEntry_foldl_totalMinutes (l : List Entry) (acc : Statistics) :
    (l.foldl applyEntry acc).TotalMinutes = acc.TotalMinutes + (l.map Entry.Duration).sum := by
  induction l generalizing acc with
  | nil => simp
  | cons e es ih => simp [ih, applyEntry, add_assoc]

lemma applyEntry_foldl_entryCount (l : List Entry) (acc : Statistics) :
    (l.foldl applyEntry acc).EntryCount = acc.EntryCount + l.length := by
  induction l generalizing acc with
  | nil => simp
  | cons e es ih => simp [ih, applyEntry]; omega

lemma applyEntry_foldl_invoiced (l : List Entry) (acc : Statistics) :
    (l.foldl applyEntry acc).InvoicedMinutes =
      acc.InvoicedMinutes + ((l.filter (fun e => e.Invoiced)).map Entry.Duration).sum := by
  induction l generalizing acc with
  | nil => simp
  | cons e es ih =>
    by_cases h : e.Invoiced <;> simp [ih, applyEntry, h, List.filter_cons, add_assoc]

lemma applyEntry_foldl_uninvoiced (l : List Entry) (acc : Statistics) :
    (l.foldl applyEntry acc).UninvoicedMinutes =
      acc.UninvoicedMinutes + ((l.filter (fun e => !e.Invoiced)).map Entry.Duration).sum := by
  induction l generalizing acc with
  | nil => simp
  | cons e es ih =>
    by_cases h : e.Invoiced <;> simp [ih, applyEntry, h, List.filter_cons, add_assoc]

lemma applyEntry_foldl_breakdown (l : List Entry) (acc : Statistics) (p : String) :
    (l.foldl applyEntry acc).ProjectBreakdown p =
      acc.ProjectBreakdown p +
        ((l.filter (fun e => e.ProjectID = p)).map Entry.Duration).sum := by
  induction l generalizing acc with
  | nil => simp
  | cons e es ih =>
    rw [List.foldl_cons, ih]
    by_cases h : e.ProjectID = p
    · subst h
      simp [applyEntry, List.filter_cons, add_assoc]
    · have h' : ¬ (p = e.ProjectID) := fun hh => h hh.symm
      simp [applyEntry, List.filter_cons, h, h']

lemma applyEntry_foldl_earliest (l : List Entry) (acc : Statistics) :
    (l.foldl applyEntry acc).EarliestEntry =
      (l.map Entry.CreatedAt).foldl optMinStep acc.EarliestEntry := by
  induction l generalizing acc with
  | nil => rfl
  | cons e es ih => simp [ih, applyEntry]

lemma applyEntry_foldl_latest (l : List Entry) (acc : Statistics) :
    (l.foldl applyEntry acc).LatestEntry =
      (l.map Entry.CreatedAt).foldl optMaxStep acc.LatestEntry := by
  induction l generalizing acc with
  | nil => rfl
  | cons e es ih => simp [ih, applyEntry]

lemma optMinStep_foldl_some (ts : List Int) (a : Int) :
    ∃ m, ts.foldl optMinStep (some a) = some m ∧ m ∈ a :: ts ∧ ∀ t ∈ a :: ts, m ≤ t := by
  induction ts generalizing a with
  | nil => exact ⟨a, rfl, by simp, by simp⟩
  | cons t ts ih =>
    have step : optMinStep (some a) t = some (if t < a then t else a) := by
      simp only [optMinStep]
      split_ifs <;> rfl
    obtain ⟨m, hm, hmem, hle⟩ := ih (if t < a then t else a)
    refine ⟨m, by simpa [step] using hm, ?_, ?_⟩
    · rcases List.mem_cons.mp hmem with h | h
      · subst h; split_ifs <;> simp
      · simp [h]
    · intro u hu
      have hba : m ≤ if t < a then t else a := hle _ (List.mem_cons_self _ _)
      rcases List.mem_cons.mp hu with h | h
      · subst h; split_ifs at hba <;> omega
      · rcases List.mem_cons.mp h with h2 | h2
        · subst h2; split_ifs at hba <;> omega
        · exact hle _ (List.mem_cons_of_mem _ h2)

lemma optMaxStep_foldl_some (ts : List Int) (a : Int) :
    ∃ m, ts.foldl optMaxStep (some a) = some m ∧ m ∈ a :: ts ∧ ∀ t ∈ a :: ts, t ≤ m := by
  induction ts generalizing a with
  | nil => exact ⟨a, rfl, by simp, by simp⟩
  | cons t ts ih =>
    have step : optMaxStep (some a) t = some (if a < t then t else a) := by
      simp only [optMaxStep]
      split_ifs <;> rfl
    obtain ⟨m, hm, hmem, hle⟩ := ih (if a < t then t else a)
    refine ⟨m, by simpa [step] using hm, ?_, ?_⟩
    · rcases List.mem_cons.mp hmem with h | h
      · subst h; split_ifs <;> simp
      · simp [h]
    · intro u hu
      have hba : (if a < t then t else a) ≤ m := hle _ (List.mem_cons_self _ _)
      rcases List.mem_cons.mp hu with h | h
      · subst h; split_ifs at hba <;> omega
      · rcases List.mem_cons.mp h with h2 | h2
        · subst h2; split_ifs at hba <;> omega
        · exact hle _ (List.mem_cons_of_mem _ h2)

/-- C6: over the same filtered entry set as listEntriesFiltered,
getStatistics returns total minutes as the sum of durations, the entry
count, the invoiced/uninvoiced split, a per-project breakdown covering every
filtered entry, min/max createdAt (absent exactly when the filtered set is
empty, with all-zero counters and no error), and totalHours =
totalMinutes / 60. -/
theorem getStatistics_spec (s : Store) (projectID : String)
    (startDate endDate : Option Int) (invoicedFilter : Option Bool) :
    (GetStatistics s projectID startDate endDate invoicedFilter).TotalMinutes =
      ((ListEntriesFiltered s projectID startDate endDate invoicedFilter).map
        Entry.Duration).sum ∧
    (GetStatistics s projectID startDate endDate invoicedFilter).EntryCount =
      (ListEntriesFiltered s projectID startDate endDate invoicedFilter).length ∧
    (GetStatistics s projectID startDate endDate invoicedFilter).InvoicedMinutes =
      (((ListEntriesFiltered s projectID startDate endDate invoicedFilter).filter
        (fun e => e.Invoiced)).map Entry.Duration).sum ∧
    (GetStatistics s projectID startDate endDate invoicedFilter).UninvoicedMinutes =
      (((ListEntriesFiltered s projectID startDate endDate invoicedFilter).filter
        (fun e => !e.Invoiced)).map Entry.Duration).sum ∧
    (∀ p, (GetStatistics s projectID startDate endDate invoicedFilter).ProjectBreakdown p =
      (((ListEntriesFiltered s projectID startDate endDate invoicedFilter).filter
        (fun e => e.ProjectID = p)).map Entry.Duration).sum) ∧
    (ListEntriesFiltered s projectID startDate endDate invoicedFilter = [] →
      (GetStatistics s projectID startDate endDate invoicedFilter).EarliestEntry = none ∧
      (GetStatistics s projectID startDate endDate invoicedFilter).LatestEntry = none) ∧
    (ListEntriesFiltered s projectID startDate endDate invoicedFilter ≠ [] →
      ∃ tmin tmax,
        (GetStatistics s projectID startDate endDate invoicedFilter).EarliestEntry = some tmin ∧
        (GetStatistics s projectID startDate endDate invoicedFilter).LatestEntry = some tmax ∧
        tmin ∈ (ListEntriesFiltered s projectID startDate endDate invoicedFilter).map
          Entry.CreatedAt ∧
        tmax ∈ (ListEntriesFiltered s projectID startDate endDate invoicedFilter).map
          Entry.CreatedAt ∧
        ∀ t ∈ (ListEntriesFiltered s projectID startDate endDate invoicedFilter).map
          Entry.CreatedAt, tmin ≤ t ∧ t ≤ tmax) ∧
    (GetStatistics s projectID startDate endDate invoicedFilter).TotalHours =
      ((GetStatistics s projectID startDate endDate invoicedFilter).TotalMinutes : ℚ) / 60 := by
  have hfold :
      s.entries.foldl (statStep projectID startDate endDate invoicedFilter) initStats =
        (ListEntriesFiltered s projectID startDate endDate invoicedFilter).foldl
          applyEntry initStats :=
    foldl_statStep_filter _ _ _ _ _ _
  set fl := ListEntriesFiltered s projectID startDate endDate invoicedFilter with hfl
  set agg := fl.foldl applyEntry initStats with hagg
  have hmain : GetStatistics s projectID startDate endDate invoicedFilter =
      { agg with TotalHours := (agg.TotalMinutes : ℚ) / 60 } := by
    simp only [GetStatistics]
    rw [hfold]
  have hTM0 : (initStats).TotalMinutes = 0 := rfl
  refine ⟨?_, ?_, ?_, ?_, ?_, ?_, ?_, ?_⟩
  · rw [hmain]
    show agg.TotalMinutes = _
    rw [hagg, applyEntry_foldl_totalMinutes, hTM0, zero_add]
  · rw [hmain]
    show agg.EntryCount = _
    rw [hagg, applyEntry_foldl_entryCount]
    simp [initStats]
  · rw [hmain]
    show agg.InvoicedMinutes = _
    rw [hagg, applyEntry_foldl_invoiced]
    show (0 : Int) + _ = _
    rw [zero_add]
  · rw [hmain]
    show agg.UninvoicedMinutes = _
    rw [hagg, applyEntry_foldl_uninvoiced]
    show (0 : Int) + _ = _
    rw [zero_add]
  · intro p
    rw [hmain]
    show agg.ProjectBreakdown p = _
    rw [hagg, applyEntry_foldl_breakdown]
    show (0 : Int) + _ = _
    rw [zero_add]
  · intro hempty
    rw [hmain]
    refine ⟨?_, ?_⟩
    · show agg.EarliestEntry = none
      rw [hagg, hempty]
      rfl
    · show agg.LatestEntry = none
      rw [hagg, hempty]
      rfl
  · intro hne
    obtain ⟨t0, ts, hdecomp⟩ := List.exists_cons_of_ne_nil hne
    have hmap : fl.map Entry.CreatedAt = t0.CreatedAt :: ts.map Entry.CreatedAt := by
      rw [hdecomp]
      rfl
    obtain ⟨mn, hmn, hmnmem, hmnle⟩ := optMinStep_foldl_some (ts.map Entry.CreatedAt) t0.CreatedAt
    obtain ⟨mx, hmx, hmxmem, hmxle⟩ := optMaxStep_foldl_some (ts.map Entry.CreatedAt) t0.CreatedAt
    refine ⟨mn, mx, ?_, ?_, ?_, ?_, ?_⟩
    · rw [hmain]
      show agg.EarliestEntry = some mn
      rw [hagg, applyEntry_foldl_earliest, hmap]
      show (ts.map Entry.CreatedAt).foldl optMinStep (optMinStep none t0.CreatedAt) = some mn
      exact hmn
    · rw [hmain]
      show agg.LatestEntry = some mx
      rw [hagg, applyEntry_foldl_latest, hmap]
      show (ts.map Entry.CreatedAt).foldl optMaxStep (optMaxStep none t0.CreatedAt) = some mx
      exact hmx
    · rw [hmap]
      exact hmnmem
    · rw [hmap]
      exact hmxmem
    · intro t ht
      rw [hmap] at ht
      exact ⟨hmnle t ht, hmxle t ht⟩
  · rw [hmain]

theorem getStatistics_spec_witness :
    ((GetStatistics ⟨[], []⟩ "" none none none).TotalMinutes =
      ((ListEntriesFiltered ⟨[], []⟩ "" none none none).map Entry.Duration).sum) ∧
    (ListEntriesFiltered ⟨[], []⟩ "" none none none = [] →
      (GetStatistics ⟨[], []⟩ "" none none none).EarliestEntry = none ∧
      (GetStatistics ⟨[], []⟩ "" none none none).LatestEntry = none) :=
  ⟨(getStatistics_spec ⟨[], []⟩ "" none none none).1,
   (getStatistics_spec ⟨[], []⟩ "" none none none).2.2.2.2.2.1⟩

/-- DeleteProject, store.go lines 147 to 172: inside one transaction, delete
the project key (bbolt `Delete` returns nil for an absent key) and scan the
entries bucket removing every entry whose ProjectID matches.  The only Go
error sources are bbolt bucket operations, which the pure model cannot fail
at, so the result is always `.ok`. -/
def DeleteProject (s : Store) (id : String) : Except String Store :=
  .ok { projects := s.projects.filter (fun p => p.ID ≠ id),
        entries := s.entries.filter (fun e => e.ProjectID ≠ id) }

/-- C7: after deleteProject(id), the operation has succeeded (also for a
non-existent id), getProject(id) fails with NotFound, listEntries(id) is
empty, and entries of every other project are unchanged. -/
theorem deleteProject_spec (s : Store) (id : String) :
    ∃ s2, DeleteProject s id = .ok s2 ∧
      GetProject s2 id = .error "project not found" ∧
      ListEntries s2 id = [] ∧
      (∀ pid, pid ≠ id → ListEntries s2 pid = ListEntries s pid) := by
  refine ⟨_, rfl, ?_, ?_, ?_⟩
  · have hfind : (s.projects.filter (fun p => p.ID ≠ id)).find? (fun p => p.ID = id) = none := by
      rw [List.find?_eq_none]
      intro p hp
      have := List.of_mem_filter hp
      simpa using this
    unfold GetProject
    rw [hfind]
  · show (s.entries.filter (fun e => e.ProjectID ≠ id)).filter (fun e => e.ProjectID = id) = []
    rw [List.filter_eq_nil_iff]
    intro e he
    have := List.of_mem_filter he
    simpa using this
  · intro pid hpid
    show (s.entries.filter (fun e => e.ProjectID ≠ id)).filter (fun e => e.ProjectID = pid) =
      s.entries.filter (fun e => e.ProjectID = pid)
    rw [List.filter_filter]
    apply List.filter_congr
    intro e _
    by_cases h : e.ProjectID = pid
    · have h2 : e.ProjectID ≠ id := by rw [h]; exact hpid
      simp [h, h2]
      exact hpid
    · simp [h]

theorem deleteProject_spec_witness :
    ∃ s2,
      DeleteProject
        ⟨[{ ID := "p1", Name := "n", GitRepoPath := "g", CreatedAt := 0, UpdatedAt := 0 }],
         [{ ID := "e1", ProjectID := "p1", Duration := 60, Message := "m", CommitHash := "",
            Invoiced := false, CreatedAt := 5, UpdatedAt := 9 },
          { ID := "e2", ProjectID := "p2", Duration := 30, Message := "m2", CommitHash := "",
            Invoiced := true, CreatedAt := 6, UpdatedAt := 9 }]⟩ "p1" = .ok s2 ∧
      GetProject s2 "p1" = .error "project not found" ∧
      ListEntries s2 "p1" = [] ∧
      ListEntries s2 "p2" =
        ListEntries
          ⟨[{ ID := "p1", Name := "n", GitRepoPath := "g", CreatedAt := 0, UpdatedAt := 0 }],
           [{ ID := "e1", ProjectID := "p1", Duration := 60, Message := "m", CommitHash := "",
              Invoiced := false, CreatedAt := 5, UpdatedAt := 9 },
            { ID := "e2", ProjectID := "p2", Duration := 30, Message := "m2", CommitHash := "",
              Invoiced := true, CreatedAt := 6, UpdatedAt := 9 }]⟩ "p2" := by
  obtain ⟨s2, h1, h2, h3, h4⟩ := deleteProject_spec
    ⟨[{ ID := "p1", Name := "n", GitRepoPath := "g", CreatedAt := 0, UpdatedAt := 0 }],
     [{ ID := "e1", ProjectID := "p1", Duration := 60, Message := "m", CommitHash := "",
        Invoiced := false, CreatedAt := 5, UpdatedAt := 9 },
      { ID := "e2", ProjectID := "p2", Duration := 30, Message := "m2", CommitHash := "",
        Invoiced := true, CreatedAt := 6, UpdatedAt := 9 }]⟩ "p1"
  exact ⟨s2, h1, h2, h3, h4 "p2" (by decide)⟩

/-- The running argument-maximum fold used to pick a "most recent" record:
keeps the first element on ties, replaces it on a strictly larger measure. -/
def argmaxFold {α : Type} (f : α → Int) (a : α) (l : List α) : α :=
  l.foldl (fun best x => if f best < f x then x else best) a

lemma argmaxFold_mem {α : Type} (f : α → Int) (a : α) (l : List α) :
    argmaxFold f a l ∈ a :: l := by
  induction l generalizing a with
  | nil => simp [argmaxFold]
  | cons x xs ih =>
    have h := ih (if f a < f x then x else a)
    unfold argmaxFold at h ⊢
    rw [List.foldl_cons]
    by_cases hc : f a < f x <;> simp [hc] at h ⊢ <;> tauto

lemma argmaxFold_le {α : Type} (f : α → Int) (a : α) (l : List α) :
    ∀ y ∈ a :: l, f y ≤ f (argmaxFold f a l) := by
  induction l generalizing a with
  | nil =>
    intro y hy
    simp at hy
    subst hy
    exact le_refl _
  | cons x xs ih =>
    intro y hy
    unfold argmaxFold
    rw [List.foldl_cons]
    have hstep : f a ≤ f (if f a < f x then x else a) ∧
        f x ≤ f (if f a < f x then x else a) := by
      by_cases hc : f a < f x <;> simp [hc] <;> omega
    have hbase : f (if f a < f x then x else a) ≤
        f (argmaxFold f (if f a < f x then x else a) xs) :=
      ih _ _ (List.mem_cons_self _ _)
    rcases List.mem_cons.mp hy with h | h
    · subst h
      exact le_trans hstep.1 hbase
    · rcases List.mem_cons.mp h with h2 | h2
      · subst h2
        exact le_trans hstep.2 hbase
      · exact ih _ _ (List.mem_cons_of_mem _ h2)

/-- Modelled from the spec: the Ledger Store operation `GetLastCommitHash`
is invoked by the current protocol adapter (src/internal/server/server.go
line 275, "Find the most recent commit hash across all entries (skips
manual entries without one)") but its store-side definition is not among
the sources; spec 4.3 defines it as the `commitHash` of the most recent
entry (by `createdAt`) of the project that has a non-empty hash, skipping
entries that recorded none, and empty when no such entry exists. -/
def GetLastCommitHash (s : Store) (projectID : String) : String :=
  match s.entries.filter (fun e => e.ProjectID = projectID ∧ e.CommitHash ≠ "") with
  | [] => ""
  | e :: rest => (argmaxFold Entry.CreatedAt e rest).CommitHash

/-- C1: getLastCommitHash returns the commitHash of a most-recent entry (by
createdAt) among the project entries with a non-empty hash, and returns the
empty string when no entry of the project has a non-empty hash. -/
theorem getLastCommitHash_spec (s : Store) (projectID : String) :
    ((∀ e ∈ s.entries, e.ProjectID = projectID → e.CommitHash = "") →
      GetLastCommitHash s projectID = "") ∧
    ((∃ e ∈ s.entries, e.ProjectID = projectID ∧ e.CommitHash ≠ "") →
      ∃ e ∈ s.entries, e.ProjectID = projectID ∧ e.CommitHash ≠ "" ∧
        GetLastCommitHash s projectID = e.CommitHash ∧
        ∀ e2 ∈ s.entries, e2.ProjectID = projectID → e2.CommitHash ≠ "" →
          e2.CreatedAt ≤ e.CreatedAt) := by
  constructor
  · intro hall
    have hnil : s.entries.filter (fun e => e.ProjectID = projectID ∧ e.CommitHash ≠ "") = [] := by
      rw [List.filter_eq_nil_iff]
      intro e he
      simp only [decide_eq_true_eq, not_and, ne_eq, Decidable.not_not]
      intro hp
      exact hall e he hp
    unfold GetLastCommitHash
    rw [hnil]
  · intro hex
    have hne : s.entries.filter (fun e => e.ProjectID = projectID ∧ e.CommitHash ≠ "") ≠ [] := by
      obtain ⟨e, he, hp, hh⟩ := hex
      intro hnil
      rw [List.filter_eq_nil_iff] at hnil
      have := hnil e he
      simp [hp, hh] at this
    obtain ⟨e0, rest, hdecomp⟩ := List.exists_cons_of_ne_nil hne
    have hres : GetLastCommitHash s projectID = (argmaxFold Entry.CreatedAt e0 rest).CommitHash := by
      unfold GetLastCommitHash
      rw [hdecomp]
    have hbestmem : argmaxFold Entry.CreatedAt e0 rest ∈
        s.entries.filter (fun e => e.ProjectID = projectID ∧ e.CommitHash ≠ "") := by
      rw [hdecomp]
      exact argmaxFold_mem _ _ _
    have hbestfacts := List.mem_filter.mp hbestmem
    have hprops := hbestfacts.2
    simp only [decide_eq_true_eq, ne_eq] at hprops
    refine ⟨argmaxFold Entry.CreatedAt e0 rest, hbestfacts.1, hprops.1, hprops.2, hres, ?_⟩
    intro e2 he2 hp2 hh2
    have he2f : e2 ∈ s.entries.filter (fun e => e.ProjectID = projectID ∧ e.CommitHash ≠ "") := by
      rw [List.mem_filter]
      exact ⟨he2, by simp [hp2, hh2]⟩
    rw [hdecomp] at he2f
    exact argmaxFold_le Entry.CreatedAt e0 rest e2 he2f

theorem getLastCommitHash_spec_witness :
    ∃ e ∈ ([{ ID := "e1", ProjectID := "p1", Duration := 60, Message := "m", CommitHash := "abc",
              Invoiced := false, CreatedAt := 5, UpdatedAt := 9 },
            { ID := "e2", ProjectID := "p1", Duration := 30, Message := "m2", CommitHash := "",
              Invoiced := false, CreatedAt := 8, UpdatedAt := 9 }] : List Entry),
      e.ProjectID = "p1" ∧ e.CommitHash ≠ "" ∧
      GetLastCommitHash
        ⟨[], [{ ID := "e1", ProjectID := "p1", Duration := 60, Message := "m", CommitHash := "abc",
                Invoiced := false, CreatedAt := 5, UpdatedAt := 9 },
              { ID := "e2", ProjectID := "p1", Duration := 30, Message := "m2", CommitHash := "",
                Invoiced := false, CreatedAt := 8, UpdatedAt := 9 }]⟩ "p1" = e.CommitHash ∧
      ∀ e2 ∈ ([{ ID := "e1", ProjectID := "p1", Duration := 60, Message := "m", CommitHash := "abc",
                 Invoiced := false, CreatedAt := 5, UpdatedAt := 9 },
               { ID := "e2", ProjectID := "p1", Duration := 30, Message := "m2", CommitHash := "",
                 Invoiced := false, CreatedAt := 8, UpdatedAt := 9 }] : List Entry),
        e2.ProjectID = "p1" → e2.CommitHash ≠ "" → e2.CreatedAt ≤ e.CreatedAt :=
  (getLastCommitHash_spec
    ⟨[], [{ ID := "e1", ProjectID := "p1", Duration := 60, Message := "m", CommitHash := "abc",
            Invoiced := false, CreatedAt := 5, UpdatedAt := 9 },
          { ID := "e2", ProjectID := "p1", Duration := 30, Message := "m2", CommitHash := "",
            Invoiced := false, CreatedAt := 8, UpdatedAt := 9 }]⟩ "p1").2
    ⟨{ ID := "e1", ProjectID := "p1", Duration := 60, Message := "m", CommitHash := "abc",
       Invoiced := false, CreatedAt := 5, UpdatedAt := 9 }, by simp, rfl, by decide⟩

/-- The running argument-minimum fold, dual to `argmaxFold`. -/
def argminFold {α : Type} (f : α → Int) (a : α) (l : List α) : α :=
  l.foldl (fun best x => if f x < f best then x else best) a

lemma argminFold_mem {α : Type} (f : α → Int) (a : α) (l : List α) :
    argminFold f a l ∈ a :: l := by
  induction l generalizing a with
  | nil => simp [argminFold]
  | cons x xs ih =>
    have h := ih (if f x < f a then x else a)
    unfold argminFold at h ⊢
    rw [List.foldl_cons]
    by_cases hc : f x < f a <;> simp [hc] at h ⊢ <;> tauto

lemma argminFold_le {α : Type} (f : α → Int) (a : α) (l : List α) :
    ∀ y ∈ a :: l, f (argminFold f a l) ≤ f y := by
  induction l generalizing a with
  | nil =>
    intro y hy
    simp at hy
    subst hy
    exact le_refl _
  | cons x xs ih =>
    intro y hy
    unfold argminFold
    rw [List.foldl_cons]
    have hstep : f (if f x < f a then x else a) ≤ f a ∧
        f (if f x < f a then x else a) ≤ f x := by
      by_cases hc : f x < f a <;> simp [hc] <;> omega
    have hbase : f (argminFold f (if f x < f a then x else a) xs) ≤
        f (if f x < f a then x else a) :=
      ih _ _ (List.mem_cons_self _ _)
    rcases List.mem_cons.mp hy with h | h
    · subst h
      exact le_trans hbase hstep.1
    · rcases List.mem_cons.mp h with h2 | h2
      · subst h2
        exact le_trans hbase hstep.2
      · exact ih _ _ (List.mem_cons_of_mem _ h2)

/-- Nanoseconds per minute: `time.Duration` arithmetic is in nanoseconds. -/
def nsPerMinute : Int := 60000000000

/-- CalculateDuration, git.go lines 111 to 137: 0 for no commits, a fixed 30
for one commit, otherwise the span between the earliest and the latest
commit timestamp in whole minutes plus a 30 minute buffer.
`int64(duration.Minutes())` truncates toward zero; on the non-negative span
this is floor division by `nsPerMinute`. -/
def CalculateDuration (commits : List CommitInfo) : Int :=
  if commits.length = 0 then 0
  else if commits.length = 1 then 30
  else
    match commits with
    | [] => 0
    | c :: rest =>
      let earliest :=
        rest.foldl (fun acc x => if x.Timestamp < acc then x.Timestamp else acc) c.Timestamp
      let latest :=
        rest.foldl (fun acc x => if acc < x.Timestamp then x.Timestamp else acc) c.Timestamp
      (latest - earliest) / nsPerMinute + 30

lemma calculateDuration_ge2 (commits : List CommitInfo) (h : 2 ≤ commits.length) :
    ∃ tmin tmax,
      tmin ∈ commits.map CommitInfo.Timestamp ∧
      tmax ∈ commits.map CommitInfo.Timestamp ∧
      (∀ t ∈ commits.map CommitInfo.Timestamp, tmin ≤ t ∧ t ≤ tmax) ∧
      CalculateDuration commits = (tmax - tmin) / nsPerMinute + 30 := by
  match commits with
  | [] => simp at h
  | [c] => simp at h
  | c :: d :: rest =>
    have hmin : (d :: rest).foldl
        (fun acc x => if x.Timestamp < acc then x.Timestamp else acc) c.Timestamp =
        argminFold id c.Timestamp ((d :: rest).map CommitInfo.Timestamp) := by
      rw [argminFold, List.foldl_map]
      rfl
    have hmax : (d :: rest).foldl
        (fun acc x => if acc < x.Timestamp then x.Timestamp else acc) c.Timestamp =
        argmaxFold id c.Timestamp ((d :: rest).map CommitInfo.Timestamp) := by
      rw [argmaxFold, List.foldl_map]
      rfl
    have hcalc : CalculateDuration (c :: d :: rest) =
        ((d :: rest).foldl (fun acc x => if acc < x.Timestamp then x.Timestamp else acc)
            c.Timestamp -
         (d :: rest).foldl (fun acc x => if x.Timestamp < acc then x.Timestamp else acc)
            c.Timestamp) / nsPerMinute + 30 := by
      unfold CalculateDuration
      rw [if_neg (by simp), if_neg (by simp)]
    have hcons : (c :: d :: rest).map CommitInfo.Timestamp =
        c.Timestamp :: (d :: rest).map CommitInfo.Timestamp := rfl
    refine ⟨argminFold id c.Timestamp ((d :: rest).map CommitInfo.Timestamp),
            argmaxFold id c.Timestamp ((d :: rest).map CommitInfo.Timestamp),
            ?_, ?_, ?_, by rw [hcalc, hmin, hmax]⟩
    · rw [hcons]
      exact argminFold_mem _ _ _
    · rw [hcons]
      exact argmaxFold_mem _ _ _
    · intro t ht
      rw [hcons] at ht
      exact ⟨argminFold_le id c.Timestamp _ t ht, argmaxFold_le id c.Timestamp _ t ht⟩

/-- C3: a single commit yields 30 minutes; two or more commits yield the
whole-minute truncated span between the chronologically latest and earliest
timestamps plus 30; and the result is invariant under any reordering of the
input because the extrema are found by comparing timestamps. -/
theorem calculateDuration_spec :
    (∀ c : CommitInfo, CalculateDuration [c] = 30) ∧
    (∀ commits : List CommitInfo, 2 ≤ commits.length →
      ∃ tmin tmax,
        tmin ∈ commits.map CommitInfo.Timestamp ∧
        tmax ∈ commits.map CommitInfo.Timestamp ∧
        (∀ t ∈ commits.map CommitInfo.Timestamp, tmin ≤ t ∧ t ≤ tmax) ∧
        CalculateDuration commits = (tmax - tmin) / nsPerMinute + 30) ∧
    (∀ l1 l2 : List CommitInfo, l1.Perm l2 →
      CalculateDuration l1 = CalculateDuration l2) := by
  refine ⟨fun c => rfl, calculateDuration_ge2, ?_⟩
  intro l1 l2 hp
  match l1, hp with
  | [], hp =>
    have : l2 = [] := List.perm_nil.mp hp.symm
    rw [this]
  | [a], hp =>
    have : l2 = [a] := List.perm_singleton.mp hp.symm
    rw [this]
  | a :: b :: l, hp =>
    have h1 : 2 ≤ (a :: b :: l).length := by simp
    have h2 : 2 ≤ l2.length := by
      rw [← hp.length_eq]
      exact h1
    obtain ⟨m1, x1, hm1, hx1, hb1, he1⟩ := calculateDuration_ge2 _ h1
    obtain ⟨m2, x2, hm2, hx2, hb2, he2⟩ := calculateDuration_ge2 _ h2
    have hmapperm := hp.map CommitInfo.Timestamp
    have hmm : m1 = m2 := by
      have a1 : m1 ≤ m2 := (hb1 m2 (hmapperm.mem_iff.mpr hm2)).1
      have a2 : m2 ≤ m1 := (hb2 m1 (hmapperm.mem_iff.mp hm1)).1
      omega
    have hxx : x1 = x2 := by
      have a1 : x1 ≤ x2 := (hb2 x1 (hmapperm.mem_iff.mp hx1)).2
      have a2 : x2 ≤ x1 := (hb1 x2 (hmapperm.mem_iff.mpr hx2)).2
      omega
    rw [he1, he2, hmm, hxx]

theorem calculateDuration_spec_witness :
    CalculateDuration [{ Hash := "aaaaaaa", Author := "au", Message := "m1", Timestamp := 0 }] =
      30 ∧
    (2 ≤ ([{ Hash := "aaaaaaa", Author := "au", Message := "m1", Timestamp := 0 },
           { Hash := "bbbbbbb", Author := "au", Message := "m2",
             Timestamp := 150000000000 }] : List CommitInfo).length) ∧
    (∃ tmin tmax,
      tmin ∈ ([{ Hash := "aaaaaaa", Author := "au", Message := "m1", Timestamp := 0 },
               { Hash := "bbbbbbb", Author := "au", Message := "m2",
                 Timestamp := 150000000000 }] : List CommitInfo).map CommitInfo.Timestamp ∧
      tmax ∈ ([{ Hash := "aaaaaaa", Author := "au", Message := "m1", Timestamp := 0 },
               { Hash := "bbbbbbb", Author := "au", Message := "m2",
                 Timestamp := 150000000000 }] : List CommitInfo).map CommitInfo.Timestamp ∧
      (∀ t ∈ ([{ Hash := "aaaaaaa", Author := "au", Message := "m1", Timestamp := 0 },
               { Hash := "bbbbbbb", Author := "au", Message := "m2",
                 Timestamp := 150000000000 }] : List CommitInfo).map CommitInfo.Timestamp,
        tmin ≤ t ∧ t ≤ tmax) ∧
      CalculateDuration
        [{ Hash := "aaaaaaa", Author := "au", Message := "m1", Timestamp := 0 },
         { Hash := "bbbbbbb", Author := "au", Message := "m2", Timestamp := 150000000000 }] =
        (tmax - tmin) / nsPerMinute + 30) ∧
    CalculateDuration
      [{ Hash := "aaaaaaa", Author := "au", Message := "m1", Timestamp := 0 },
       { Hash := "bbbbbbb", Author := "au", Message := "m2", Timestamp := 150000000000 }] =
      CalculateDuration
        [{ Hash := "bbbbbbb", Author := "au", Message := "m2", Timestamp := 150000000000 },
         { Hash := "aaaaaaa", Author := "au", Message := "m1", Timestamp := 0 }] :=
  ⟨calculateDuration_spec.1 _, by decide,
   calculateDuration_spec.2.1 _ (by decide),
   calculateDuration_spec.2.2 _ _ (List.reverse_perm _).symm⟩

/-- The Go slice `commit.Hash[:7]` (git.go line 102): defined only when the
hash has at least 7 bytes, a panic otherwise; the panic is modelled as
`none`. -/
def shortHash (h : String) : Option String :=
  if 7 ≤ h.length then some (String.mk (h.data.take 7)) else none

/-- One line of the aggregation summary: `"%d. [%s] %s\n"` (git.go line 100). -/
def commitLine (n : Nat) (sh msg : String) : String :=
  toString n ++ ". [" ++ sh ++ "] " ++ msg ++ "\n"

/-- The loop of AggregateCommits, git.go lines 99 to 104, with the running
index made explicit; `none` propagates a short-hash panic. -/
def aggLines : Nat → List CommitInfo → Option String
  | _, [] => some ""
  | i, c :: rest =>
    match shortHash c.Hash with
    | none => none
    | some sh =>
      match aggLines (i + 1) rest with
      | none => none
      | some r => some (commitLine (i + 1) sh c.Message ++ r)

/-- AggregateCommits, git.go lines 91 to 107: empty input gives the empty
string, otherwise a count-prefixed header followed by one numbered line per
commit in supplied order. -/
def AggregateCommits (commits : List CommitInfo) : Option String :=
  if commits.length = 0 then some ""
  else
    match aggLines 0 commits with
    | none => none
    | some body => some ("Aggregated " ++ toString commits.length ++ " commits:\n" ++ body)

lemma aggLines_eq (commits : List CommitInfo) (k : Nat)
    (h7 : ∀ c ∈ commits, 7 ≤ c.Hash.length) :
    aggLines k commits = some (((commits.enumFrom k).map
      (fun p => commitLine (p.1 + 1) (String.mk (p.2.Hash.data.take 7)) p.2.Message)).foldr
        (· ++ ·) "") := by
  induction commits generalizing k with
  | nil => rfl
  | cons c rest ih =>
    have hc : 7 ≤ c.Hash.length := h7 c (List.mem_cons_self _ _)
    have hrest : ∀ x ∈ rest, 7 ≤ x.Hash.length := fun x hx => h7 x (List.mem_cons_of_mem _ hx)
    have hsh : shortHash c.Hash = some (String.mk (c.Hash.data.take 7)) := by
      unfold shortHash
      rw [if_pos hc]
    unfold aggLines
    rw [hsh, ih (k + 1) hrest]
    rfl

/-- C10: aggregateCommits is total and equals the count-prefixed numbered
listing (short hash, message, supplied order) whenever every hash has at
least 7 characters; it returns the empty summary for zero commits; and it is
undefined (Go panics on the out-of-range slice) on an input containing a
hash shorter than 7 characters. -/
theorem aggregateCommits_spec :
    AggregateCommits [] = some "" ∧
    (∀ commits : List CommitInfo, commits ≠ [] →
      (∀ c ∈ commits, 7 ≤ c.Hash.length) →
      AggregateCommits commits =
        some ("Aggregated " ++ toString commits.length ++ " commits:\n" ++
          ((commits.enumFrom 0).map
            (fun p => commitLine (p.1 + 1) (String.mk (p.2.Hash.data.take 7))
              p.2.Message)).foldr (· ++ ·) "")) ∧
    AggregateCommits
      [{ Hash := "abc", Author := "au", Message := "m", Timestamp := 0 }] = none := by
  refine ⟨rfl, ?_, rfl⟩
  intro commits hne h7
  unfold AggregateCommits
  rw [if_neg (by simpa using hne), aggLines_eq commits 0 h7]

theorem aggregateCommits_spec_witness :
    ([{ Hash := "abcdef1", Author := "au", Message := "first", Timestamp := 0 },
      { Hash := "1234567890", Author := "au", Message := "second", Timestamp := 1 }] :
        List CommitInfo) ≠ [] ∧
    (∀ c ∈ ([{ Hash := "abcdef1", Author := "au", Message := "first", Timestamp := 0 },
             { Hash := "1234567890", Author := "au", Message := "second", Timestamp := 1 }] :
        List CommitInfo), 7 ≤ c.Hash.length) ∧
    AggregateCommits
      [{ Hash := "abcdef1", Author := "au", Message := "first", Timestamp := 0 },
       { Hash := "1234567890", Author := "au", Message := "second", Timestamp := 1 }] =
      some ("Aggregated " ++ toString (2 : Nat) ++ " commits:\n" ++
        ((([{ Hash := "abcdef1", Author := "au", Message := "first", Timestamp := 0 },
            { Hash := "1234567890", Author := "au", Message := "second", Timestamp := 1 }] :
              List CommitInfo).enumFrom 0).map
          (fun p => commitLine (p.1 + 1) (String.mk (p.2.Hash.data.take 7))
            p.2.Message)).foldr (· ++ ·) "") :=
  ⟨by decide, by decide,
   aggregateCommits_spec.2.1 _ (by decide) (by decide)⟩

/-- Standard decimal valuation of a digit string, most significant first. -/
def digitsToNat (ds : List Char) : Nat :=
  ds.foldl (fun a c => 10 * a + (c.toNat - 48)) 0

/-- Exact scaled-decimal value `num / 10 ^ scale`: the model of the float64
values the duration parser manipulates.  Every float the parser builds is a
short decimal literal (or a sum/60-multiple of two of them), so exact
decimal arithmetic agrees with the Go float64 arithmetic on everything the
claims compare or truncate. -/
structure Dec where
  num : Int
  scale : Nat
deriving DecidableEq, Repr

/-- Rational value of a scaled decimal. -/
def Dec.toQ (d : Dec) : ℚ :=
  (d.num : ℚ) / 10 ^ d.scale

/-- Multiplication by an integer constant (used for `hours * 60`). -/
def Dec.scaleMul (d : Dec) (k : Int) : Dec :=
  ⟨d.num * k, d.scale⟩

/-- Addition of scaled decimals (used for `totalMinutes += ...`). -/
def Dec.add (a b : Dec) : Dec :=
  ⟨a.num * 10 ^ b.scale + b.num * 10 ^ a.scale, a.scale + b.scale⟩

/-- The Go conversion `int64(f)`: truncation toward zero. -/
def Dec.toInt64Trunc (d : Dec) : Int :=
  d.num.tdiv (10 ^ d.scale)

/-- Model of `strconv.ParseFloat` restricted to plain decimal literals
(sign, digits, optional fraction).  Go additionally accepts exponent, hex,
inf and NaN spellings; none is exercised by the duration grammar or the
claims. -/
def parseFloatDec (s : List Char) : Option Dec :=
  if s = [] then none
  else
    let neg : Bool := s.head? = some '-'
    let body := if s.head? = some '-' ∨ s.head? = some '+' then s.tail else s
    let ds := body.takeWhile Char.isDigit
    match body.dropWhile Char.isDigit with
    | [] =>
      if ds = [] then none
      else some ⟨(if neg then -1 else 1) * digitsToNat ds, 0⟩
    | c :: r2 =>
      if c = '.' then
        let fs := r2.takeWhile Char.isDigit
        let r3 := r2.dropWhile Char.isDigit
        if r3 ≠ [] then none
        else if ds = [] ∧ fs = [] then none
        else some ⟨(if neg then -1 else 1) *
          (digitsToNat ds * 10 ^ fs.length + digitsToNat fs), fs.length⟩
      else none

/-- Leftmost match of the Go regexp `(-?\d+\.?\d*)h` at position 0,
returning the capture group.  Because a maximal digit run is never followed
by a digit, the greedy RE2 semantics of `\d+`, `\.?` and `\d*` need no
backtracking, and this deterministic scanner returns exactly the submatch
`regexp.FindStringSubmatch` would. -/
def matchHoursCore (s : List Char) : Option (List Char) :=
  let ds := s.takeWhile Char.isDigit
  let r1 := s.dropWhile Char.isDigit
  if ds = [] then none
  else
    match r1 with
    | [] => none
    | c :: r2 =>
      if c = 'h' then some ds
      else if c = '.' then
        let fs := r2.takeWhile Char.isDigit
        match r2.dropWhile Char.isDigit with
        | [] => none
        | c2 :: _ => if c2 = 'h' then some (ds ++ '.' :: fs) else none
      else none

/-- `(-?\d+\.?\d*)h` at position 0 including the optional sign. -/
def matchHoursAt (s : List Char) : Option (List Char) :=
  match s with
  | [] => none
  | c :: r =>
    if c = '-' then (matchHoursCore r).map (fun cap => '-' :: cap)
    else matchHoursCore (c :: r)

/-- Leftmost match of the Go regexp `(-?\d+)m` at position 0. -/
def matchMinutesCore (s : List Char) : Option (List Char) :=
  let ds := s.takeWhile Char.isDigit
  match s.dropWhile Char.isDigit with
  | [] => none
  | c :: _ => if c = 'm' ∧ ds ≠ [] then some ds else none

/-- `(-?\d+)m` at position 0 including the optional sign. -/
def matchMinutesAt (s : List Char) : Option (List Char) :=
  match s with
  | [] => none
  | c :: r =>
    if c = '-' then (matchMinutesCore r).map (fun cap => '-' :: cap)
    else matchMinutesCore (c :: r)

/-- `FindStringSubmatch`: the match at the leftmost position where the
pattern matches.  Neither duration pattern can match the empty suffix. -/
def findFirstMatch (m : List Char → Option (List Char)) : List Char → Option (List Char)
  | [] => none
  | c :: cs =>
    match m (c :: cs) with
    | some cap => some cap
    | none => findFirstMatch m cs

/-- The white space characters of `strings.TrimSpace` exercised here
(`unicode.IsSpace` also covers \v, \f and two non-ASCII code points). -/
def isSpaceChar (c : Char) : Bool :=
  c = ' ' ∨ c = '\t' ∨ c = '\n' ∨ c = '\r'

/-- `strings.TrimSpace`. -/
def trimChars (s : List Char) : List Char :=
  ((s.dropWhile isSpaceChar).reverse.dropWhile isSpaceChar).reverse

/-- The fixed format-error message of duration.go line 56. -/
def fmtMsg : String :=
  "invalid duration format. Use \x271h 30m\x27, \x2790m\x27, or \x2790\x27"

/-- The hours contribution of duration.go lines 36 to 43: leftmost match of
the hours pattern, parsed and multiplied by 60; zero when there is no
match.  (The parse-failure branch is unreachable: every capture is a valid
decimal literal.) -/
def hoursTotal (inp : List Char) : Except String Dec :=
  match findFirstMatch matchHoursAt inp with
  | none => .ok ⟨0, 0⟩
  | some cap =>
    match parseFloatDec cap with
    | none => .error ("invalid hours value: failed to parse " ++ String.mk cap)
    | some h => .ok (h.scaleMul 60)

/-- The minutes contribution of duration.go lines 46 to 53. -/
def minutesTotal (inp : List Char) : Except String Dec :=
  match findFirstMatch matchMinutesAt inp with
  | none => .ok ⟨0, 0⟩
  | some cap =>
    match parseFloatDec cap with
    | none => .error ("invalid minutes value: failed to parse " ++ String.mk cap)
    | some mv => .ok mv

/-- ParseDuration, duration.go lines 17 to 60: empty check, trim, the plain
number fast path (positive check, then `int64` truncation), otherwise the
regex path summing the hours and minutes contributions with a positivity
check on the total. -/
def ParseDuration (input : String) : Except String Int :=
  if input = "" then .error "duration cannot be empty"
  else
    let inp := trimChars input.data
    match parseFloatDec inp with
    | some num =>
      if num.num ≤ 0 then .error "duration must be positive"
      else .ok num.toInt64Trunc
    | none =>
      match hoursTotal inp with
      | .error e => .error e
      | .ok hq =>
        match minutesTotal inp with
        | .error e => .error e
        | .ok mq =>
          let total := hq.add mq
          if total.num ≤ 0 then .error fmtMsg
          else .ok total.toInt64Trunc

/-- The total the parsing pipeline computes before the positivity gate:
the plain-number value on the fast path, otherwise hours plus minutes. -/
def rawTotal (input : String) : Option Dec :=
  let inp := trimChars input.data
  match parseFloatDec inp with
  | some num => some num
  | none =>
    match hoursTotal inp, minutesTotal inp with
    | .ok hq, .ok mq => some (hq.add mq)
    | _, _ => none

lemma data_mk (l : List Char) : (String.mk l).data = l := rfl

lemma stringMk_ne_empty (l : List Char) (h : l ≠ []) : String.mk l ≠ "" := by
  intro hh
  exact h (congrArg String.data hh)

lemma takeWhile_all (p : Char → Bool) (l : List Char) (h : ∀ c ∈ l, p c = true) :
    l.takeWhile p = l ∧ l.dropWhile p = [] := by
  induction l with
  | nil => exact ⟨rfl, rfl⟩
  | cons c cs ih =>
    have hc : p c = true := h c (List.mem_cons_self _ _)
    have ihr := ih (fun x hx => h x (List.mem_cons_of_mem _ hx))
    rw [List.takeWhile_cons, List.dropWhile_cons, if_pos hc, if_pos hc, ihr.1, ihr.2]
    exact ⟨rfl, rfl⟩

lemma takeWhile_append_stop (p : Char → Bool) (ds : List Char) (x : Char) (r : List Char)
    (h1 : ∀ c ∈ ds, p c = true) (h2 : p x = false) :
    (ds ++ x :: r).takeWhile p = ds ∧ (ds ++ x :: r).dropWhile p = x :: r := by
  induction ds with
  | nil =>
    rw [List.nil_append, List.takeWhile_cons, List.dropWhile_cons, h2]
    exact ⟨rfl, rfl⟩
  | cons c cs ih =>
    have hc : p c = true := h1 c (List.mem_cons_self _ _)
    have ihr := ih (fun y hy => h1 y (List.mem_cons_of_mem _ hy))
    rw [List.cons_append, List.takeWhile_cons, List.dropWhile_cons, if_pos hc, if_pos hc,
      ihr.1, ihr.2]
    exact ⟨rfl, rfl⟩

lemma digit_ne_minus {c : Char} (h : c.isDigit = true) : c ≠ '-' := by
  intro hh
  subst hh
  simp at h

lemma digit_not_space {c : Char} (h : c.isDigit = true) : isSpaceChar c = false := by
  by_contra hc
  rw [Bool.not_eq_false] at hc
  simp only [isSpaceChar, decide_eq_true_eq] at hc
  rcases hc with h1 | h1 | h1 | h1 <;> subst h1 <;> simp at h

lemma trimChars_no_space (l : List Char) (h : ∀ c ∈ l, isSpaceChar c = false) :
    trimChars l = l := by
  have drop_id : ∀ l2 : List Char, (∀ c ∈ l2, isSpaceChar c = false) →
      l2.dropWhile isSpaceChar = l2 := by
    intro l2 h2
    cases l2 with
    | nil => rfl
    | cons c cs =>
      rw [List.dropWhile_cons, h2 c (List.mem_cons_self _ _)]
      simp
  unfold trimChars
  rw [drop_id l h, drop_id l.reverse (fun c hc => h c (List.mem_reverse.mp hc)),
    List.reverse_reverse]

lemma trimChars_of_bounds (a : Char) (mid : List Char) (d : Char)
    (ha : isSpaceChar a = false) (hd : isSpaceChar d = false) :
    trimChars (a :: (mid ++ [d])) = a :: (mid ++ [d]) := by
  unfold trimChars
  rw [List.dropWhile_cons, ha]
  simp only [Bool.false_eq_true, if_false]
  have hrev : (a :: (mid ++ [d])).reverse = d :: (mid.reverse ++ [a]) := by
    simp
  rw [hrev, List.dropWhile_cons, hd]
  simp only [Bool.false_eq_true, if_false]
  rw [← hrev, List.reverse_reverse]

lemma ffm_cons (m : List Char → Option (List Char)) (c : Char) (cs : List Char) :
    findFirstMatch m (c :: cs) =
      match m (c :: cs) with
      | some cap => some cap
      | none => findFirstMatch m cs := rfl

lemma ffm_cons_some (m : List Char → Option (List Char)) (c : Char) (cs cap : List Char)
    (h : m (c :: cs) = some cap) : findFirstMatch m (c :: cs) = some cap := by
  rw [ffm_cons, h]

lemma ffm_cons_none (m : List Char → Option (List Char)) (c : Char) (cs : List Char)
    (h : m (c :: cs) = none) : findFirstMatch m (c :: cs) = findFirstMatch m cs := by
  rw [ffm_cons, h]

lemma matchHoursAt_cons_core (c : Char) (r : List Char) (h : c ≠ '-') :
    matchHoursAt (c :: r) = matchHoursCore (c :: r) := by
  have hh : matchHoursAt (c :: r) =
      if c = '-' then (matchHoursCore r).map (fun cap => '-' :: cap)
      else matchHoursCore (c :: r) := rfl
  rw [hh, if_neg h]

lemma matchMinutesAt_cons_core (c : Char) (r : List Char) (h : c ≠ '-') :
    matchMinutesAt (c :: r) = matchMinutesCore (c :: r) := by
  have hh : matchMinutesAt (c :: r) =
      if c = '-' then (matchMinutesCore r).map (fun cap => '-' :: cap)
      else matchMinutesCore (c :: r) := rfl
  rw [hh, if_neg h]

lemma matchHoursAt_digits_h (hd : List Char) (hne : hd ≠ [])
    (hdig : ∀ c ∈ hd, c.isDigit = true) (T : List Char) :
    matchHoursAt (hd ++ 'h' :: T) = some hd := by
  obtain ⟨a, hd1, rfl⟩ := List.exists_cons_of_ne_nil hne
  have ha : a.isDigit = true := hdig a (List.mem_cons_self _ _)
  rw [List.cons_append, matchHoursAt_cons_core _ _ (digit_ne_minus ha), ← List.cons_append]
  have htw := takeWhile_append_stop Char.isDigit (a :: hd1) 'h' T hdig (by decide)
  unfold matchHoursCore
  rw [htw.1, htw.2]
  rw [if_neg (by simp)]
  simp

lemma matchHoursAt_digits_dot (ip fp : List Char) (hip : ip ≠ [])
    (hdip : ∀ c ∈ ip, c.isDigit = true) (hdfp : ∀ c ∈ fp, c.isDigit = true) (T : List Char) :
    matchHoursAt (ip ++ '.' :: (fp ++ 'h' :: T)) = some (ip ++ '.' :: fp) := by
  obtain ⟨a, ip1, rfl⟩ := List.exists_cons_of_ne_nil hip
  have ha : a.isDigit = true := hdip a (List.mem_cons_self _ _)
  rw [List.cons_append, matchHoursAt_cons_core _ _ (digit_ne_minus ha), ← List.cons_append]
  have htw := takeWhile_append_stop Char.isDigit (a :: ip1) '.' (fp ++ 'h' :: T) hdip (by decide)
  have htw2 := takeWhile_append_stop Char.isDigit fp 'h' T hdfp (by decide)
  unfold matchHoursCore
  rw [htw.1, htw.2]
  rw [if_neg (by simp)]
  simp only [reduceIte]
  rw [htw2.1, htw2.2]
  simp

lemma matchMinutesAt_digits_m (md : List Char) (hne : md ≠ [])
    (hdig : ∀ c ∈ md, c.isDigit = true) (T : List Char) :
    matchMinutesAt (md ++ 'm' :: T) = some md := by
  obtain ⟨a, md1, rfl⟩ := List.exists_cons_of_ne_nil hne
  have ha : a.isDigit = true := hdig a (List.mem_cons_self _ _)
  rw [List.cons_append, matchMinutesAt_cons_core _ _ (digit_ne_minus ha), ← List.cons_append]
  have htw := takeWhile_append_stop Char.isDigit (a :: md1) 'm' T hdig (by decide)
  unfold matchMinutesCore
  rw [htw.1, htw.2]
  simp

lemma ffm_minutes_skip (ds : List Char) (x : Char) (T : List Char)
    (hdig : ∀ c ∈ ds, c.isDigit = true) (hx1 : x.isDigit = false) (hx2 : x ≠ 'm')
    (hx3 : x ≠ '-') :
    findFirstMatch matchMinutesAt (ds ++ x :: T) = findFirstMatch matchMinutesAt T := by
  induction ds with
  | nil =>
    rw [List.nil_append]
    have hnone : matchMinutesAt (x :: T) = none := by
      rw [matchMinutesAt_cons_core _ _ hx3]
      unfold matchMinutesCore
      rw [List.takeWhile_cons, List.dropWhile_cons, hx1]
      simp [hx2]
    rw [ffm_cons_none _ _ _ hnone]
  | cons a ds1 ih =>
    have ha : a.isDigit = true := hdig a (List.mem_cons_self _ _)
    have hds1 : ∀ c ∈ ds1, c.isDigit = true := fun c hc => hdig c (List.mem_cons_of_mem _ hc)
    have hnone : matchMinutesAt (a :: (ds1 ++ x :: T)) = none := by
      rw [matchMinutesAt_cons_core _ _ (digit_ne_minus ha), ← List.cons_append]
      have htw := takeWhile_append_stop Char.isDigit (a :: ds1) x T hdig hx1
      unfold matchMinutesCore
      rw [htw.1, htw.2]
      simp [hx2]
    rw [List.cons_append, ffm_cons_none _ _ _ hnone]
    exact ih hds1

lemma ffm_hours_skip (ds : List Char) (x : Char) (T : List Char)
    (hdig : ∀ c ∈ ds, c.isDigit = true) (hx1 : x.isDigit = false) (hxh : x ≠ 'h')
    (hxd : x ≠ '.') (hxm : x ≠ '-') :
    findFirstMatch matchHoursAt (ds ++ x :: T) = findFirstMatch matchHoursAt T := by
  induction ds with
  | nil =>
    rw [List.nil_append]
    have hnone : matchHoursAt (x :: T) = none := by
      rw [matchHoursAt_cons_core _ _ hxm]
      unfold matchHoursCore
      rw [List.takeWhile_cons, hx1]
      simp
    rw [ffm_cons_none _ _ _ hnone]
  | cons a ds1 ih =>
    have ha : a.isDigit = true := hdig a (List.mem_cons_self _ _)
    have hds1 : ∀ c ∈ ds1, c.isDigit = true := fun c hc => hdig c (List.mem_cons_of_mem _ hc)
    have hnone : matchHoursAt (a :: (ds1 ++ x :: T)) = none := by
      rw [matchHoursAt_cons_core _ _ (digit_ne_minus ha), ← List.cons_append]
      have htw := takeWhile_append_stop Char.isDigit (a :: ds1) x T hdig hx1
      unfold matchHoursCore
      rw [htw.1, htw.2]
      rw [if_neg (by simp)]
      simp [hxh, hxd]
    rw [List.cons_append, ffm_cons_none _ _ _ hnone]
    exact ih hds1

lemma digit_ne_plus {c : Char} (h : c.isDigit = true) : c ≠ '+' := by
  intro hh
  subst hh
  simp at h

lemma parseFloatDec_digits (nd : List Char) (hne : nd ≠ [])
    (hdig : ∀ c ∈ nd, c.isDigit = true) :
    parseFloatDec nd = some ⟨(digitsToNat nd : Int), 0⟩ := by
  obtain ⟨a, nd1, rfl⟩ := List.exists_cons_of_ne_nil hne
  have ha : a.isDigit = true := hdig a (List.mem_cons_self _ _)
  have htw := takeWhile_all Char.isDigit (a :: nd1) hdig
  unfold parseFloatDec
  rw [if_neg (by simp)]
  simp only [List.head?_cons, Option.some.injEq, digit_ne_minus ha, digit_ne_plus ha,
    or_self, if_false, decide_eq_true_eq, htw.1, htw.2]
  rw [if_neg (by simp)]
  simp [digit_ne_minus ha]

lemma parseFloatDec_digits_dot (ip fp : List Char) (hip : ip ≠ [])
    (hdip : ∀ c ∈ ip, c.isDigit = true) (hdfp : ∀ c ∈ fp, c.isDigit = true) :
    parseFloatDec (ip ++ '.' :: fp) =
      some ⟨((digitsToNat ip * 10 ^ fp.length + digitsToNat fp : Nat) : Int), fp.length⟩ := by
  obtain ⟨a, ip1, rfl⟩ := List.exists_cons_of_ne_nil hip
  have ha : a.isDigit = true := hdip a (List.mem_cons_self _ _)
  have htw := takeWhile_append_stop Char.isDigit (a :: ip1) '.' fp hdip (by decide)
  have htw1 : (a :: (ip1 ++ '.' :: fp)).takeWhile Char.isDigit = a :: ip1 := by
    rw [← List.cons_append]
    exact htw.1
  have htw2 : (a :: (ip1 ++ '.' :: fp)).dropWhile Char.isDigit = '.' :: fp := by
    rw [← List.cons_append]
    exact htw.2
  have hfp := takeWhile_all Char.isDigit fp hdfp
  rw [List.cons_append]
  unfold parseFloatDec
  rw [if_neg (by simp)]
  simp only [List.head?_cons, Option.some.injEq, digit_ne_minus ha, digit_ne_plus ha,
    or_self, if_false, htw1, htw2]
  simp only [reduceIte, hfp.1, hfp.2, ne_eq, not_true_eq_false, if_false]
  rw [if_neg (by simp)]
  simp [digit_ne_minus ha]

lemma parseFloatDec_stop (ds : List Char) (x : Char) (T : List Char) (hne : ds ≠ [])
    (hdig : ∀ c ∈ ds, c.isDigit = true) (hx1 : x.isDigit = false) (hxd : x ≠ '.') :
    parseFloatDec (ds ++ x :: T) = none := by
  obtain ⟨a, ds1, rfl⟩ := List.exists_cons_of_ne_nil hne
  have ha : a.isDigit = true := hdig a (List.mem_cons_self _ _)
  have htw := takeWhile_append_stop Char.isDigit (a :: ds1) x T hdig hx1
  have htw1 : (a :: (ds1 ++ x :: T)).takeWhile Char.isDigit = a :: ds1 := by
    rw [← List.cons_append]
    exact htw.1
  have htw2 : (a :: (ds1 ++ x :: T)).dropWhile Char.isDigit = x :: T := by
    rw [← List.cons_append]
    exact htw.2
  rw [List.cons_append]
  unfold parseFloatDec
  rw [if_neg (by simp)]
  simp only [List.head?_cons, Option.some.injEq, digit_ne_minus ha, digit_ne_plus ha,
    or_self, if_false, htw1, htw2]
  simp [hxd]

lemma parseFloatDec_dot_stop (ip fp : List Char) (x : Char) (T : List Char) (hip : ip ≠ [])
    (hdip : ∀ c ∈ ip, c.isDigit = true) (hdfp : ∀ c ∈ fp, c.isDigit = true)
    (hx1 : x.isDigit = false) :
    parseFloatDec (ip ++ '.' :: (fp ++ x :: T)) = none := by
  obtain ⟨a, ip1, rfl⟩ := List.exists_cons_of_ne_nil hip
  have ha : a.isDigit = true := hdip a (List.mem_cons_self _ _)
  have htw := takeWhile_append_stop Char.isDigit (a :: ip1) '.' (fp ++ x :: T) hdip (by decide)
  have htw1 : (a :: (ip1 ++ '.' :: (fp ++ x :: T))).takeWhile Char.isDigit = a :: ip1 := by
    rw [← List.cons_append]
    exact htw.1
  have htw2 : (a :: (ip1 ++ '.' :: (fp ++ x :: T))).dropWhile Char.isDigit =
      '.' :: (fp ++ x :: T) := by
    rw [← List.cons_append]
    exact htw.2
  have hfp := takeWhile_append_stop Char.isDigit fp x T hdfp hx1
  rw [List.cons_append]
  unfold parseFloatDec
  rw [if_neg (by simp)]
  simp only [List.head?_cons, Option.some.injEq, digit_ne_minus ha, digit_ne_plus ha,
    or_self, if_false, htw1, htw2]
  simp only [reduceIte, hfp.1, hfp.2]
  simp

lemma parseDuration_unfold (l : List Char) (hne : l ≠ []) :
    ParseDuration (String.mk l) =
      (match parseFloatDec (trimChars l) with
       | some num =>
         if num.num ≤ 0 then .error "duration must be positive"
         else .ok num.toInt64Trunc
       | none =>
         match hoursTotal (trimChars l) with
         | .error e => .error e
         | .ok hq =>
           match minutesTotal (trimChars l) with
           | .error e => .error e
           | .ok mq =>
             if (hq.add mq).num ≤ 0 then .error fmtMsg
             else .ok (hq.add mq).toInt64Trunc) := by
  unfold ParseDuration
  rw [if_neg (stringMk_ne_empty l hne)]

lemma ffm_hours_digits_h (hd : List Char) (hne : hd ≠ [])
    (hdig : ∀ c ∈ hd, c.isDigit = true) (T : List Char) :
    findFirstMatch matchHoursAt (hd ++ 'h' :: T) = some hd := by
  obtain ⟨a, hd1, rfl⟩ := List.exists_cons_of_ne_nil hne
  rw [List.cons_append]
  refine ffm_cons_some _ _ _ _ ?_
  have := matchHoursAt_digits_h (a :: hd1) hne hdig T
  rwa [List.cons_append] at this

lemma ffm_hours_digits_dot (ip fp : List Char) (hip : ip ≠ [])
    (hdip : ∀ c ∈ ip, c.isDigit = true) (hdfp : ∀ c ∈ fp, c.isDigit = true) (T : List Char) :
    findFirstMatch matchHoursAt (ip ++ '.' :: (fp ++ 'h' :: T)) = some (ip ++ '.' :: fp) := by
  obtain ⟨a, ip1, rfl⟩ := List.exists_cons_of_ne_nil hip
  rw [List.cons_append]
  refine ffm_cons_some _ _ _ _ ?_
  have := matchHoursAt_digits_dot (a :: ip1) fp hip hdip hdfp T
  rwa [List.cons_append] at this

lemma ffm_minutes_digits_m (md : List Char) (hne : md ≠ [])
    (hdig : ∀ c ∈ md, c.isDigit = true) (T : List Char) :
    findFirstMatch matchMinutesAt (md ++ 'm' :: T) = some md := by
  obtain ⟨a, md1, rfl⟩ := List.exists_cons_of_ne_nil hne
  rw [List.cons_append]
  refine ffm_cons_some _ _ _ _ ?_
  have := matchMinutesAt_digits_m (a :: md1) hne hdig T
  rwa [List.cons_append] at this

lemma hoursTotal_of_ffm_none (l : List Char) (h : findFirstMatch matchHoursAt l = none) :
    hoursTotal l = .ok ⟨0, 0⟩ := by
  unfold hoursTotal
  rw [h]

lemma minutesTotal_of_ffm_none (l : List Char) (h : findFirstMatch matchMinutesAt l = none) :
    minutesTotal l = .ok ⟨0, 0⟩ := by
  unfold minutesTotal
  rw [h]

lemma hoursTotal_digits (l hd : List Char) (h : findFirstMatch matchHoursAt l = some hd)
    (hne : hd ≠ []) (hdig : ∀ c ∈ hd, c.isDigit = true) :
    hoursTotal l = .ok ⟨(digitsToNat hd : Int) * 60, 0⟩ := by
  unfold hoursTotal
  simp only [h, parseFloatDec_digits hd hne hdig, Dec.scaleMul]

lemma minutesTotal_digits (l md : List Char) (h : findFirstMatch matchMinutesAt l = some md)
    (hne : md ≠ []) (hdig : ∀ c ∈ md, c.isDigit = true) :
    minutesTotal l = .ok ⟨(digitsToNat md : Int), 0⟩ := by
  unfold minutesTotal
  simp only [h, parseFloatDec_digits md hne hdig]

lemma parseDuration_regex_result (l : List Char) (hne : l ≠ []) (hq mq : Dec)
    (hpf : parseFloatDec (trimChars l) = none)
    (hht : hoursTotal (trimChars l) = .ok hq)
    (hmt : minutesTotal (trimChars l) = .ok mq) :
    ParseDuration (String.mk l) =
      (if (hq.add mq).num ≤ 0 then .error fmtMsg else .ok (hq.add mq).toInt64Trunc) := by
  rw [parseDuration_unfold l hne]
  simp only [hpf, hht, hmt]

lemma parseDuration_plain_result (l : List Char) (hne : l ≠ []) (num : Dec)
    (hpf : parseFloatDec (trimChars l) = some num) :
    ParseDuration (String.mk l) =
      (if num.num ≤ 0 then .error "duration must be positive"
       else .ok num.toInt64Trunc) := by
  rw [parseDuration_unfold l hne]
  simp only [hpf]

/-- ParseDuration on an integral hours-and-minutes form such as "1h 30m". -/
lemma parseDuration_hm (hd md : List Char) (hne1 : hd ≠ [])
    (hd1 : ∀ c ∈ hd, c.isDigit = true) (hne2 : md ≠ [])
    (hd2 : ∀ c ∈ md, c.isDigit = true)
    (hpos : 0 < 60 * digitsToNat hd + digitsToNat md) :
    ParseDuration (String.mk (hd ++ 'h' :: ' ' :: (md ++ ['m']))) =
      .ok (60 * digitsToNat hd + digitsToNat md) := by
  obtain ⟨a, hd1', rfl⟩ := List.exists_cons_of_ne_nil hne1
  have ha : a.isDigit = true := hd1 a (List.mem_cons_self _ _)
  have hshape : (a :: hd1') ++ 'h' :: ' ' :: (md ++ ['m']) =
      a :: ((hd1' ++ 'h' :: ' ' :: md) ++ ['m']) := by
    simp
  have htrim : trimChars ((a :: hd1') ++ 'h' :: ' ' :: (md ++ ['m'])) =
      (a :: hd1') ++ 'h' :: ' ' :: (md ++ ['m']) := by
    rw [hshape]
    exact trimChars_of_bounds a _ 'm' (digit_not_space ha) (by decide)
  have hpf : parseFloatDec ((a :: hd1') ++ 'h' :: ' ' :: (md ++ ['m'])) = none :=
    parseFloatDec_stop (a :: hd1') 'h' _ hne1 hd1 (by decide) (by decide)
  have hffmh : findFirstMatch matchHoursAt ((a :: hd1') ++ 'h' :: ' ' :: (md ++ ['m'])) =
      some (a :: hd1') :=
    ffm_hours_digits_h (a :: hd1') hne1 hd1 _
  have hffmm : findFirstMatch matchMinutesAt ((a :: hd1') ++ 'h' :: ' ' :: (md ++ ['m'])) =
      some md := by
    rw [ffm_minutes_skip (a :: hd1') 'h' _ hd1 (by decide) (by decide) (by decide)]
    have hsp := ffm_minutes_skip [] ' ' (md ++ ['m'])
      (by intro c hc; simp at hc) (by decide) (by decide) (by decide)
    rw [List.nil_append] at hsp
    rw [hsp]
    exact ffm_minutes_digits_m md hne2 hd2 []
  have hnum : ((⟨(digitsToNat (a :: hd1') : Int) * 60, 0⟩ : Dec).add
      ⟨(digitsToNat md : Int), 0⟩).num =
      ((60 * digitsToNat (a :: hd1') + digitsToNat md : Nat) : Int) := by
    simp [Dec.add]
    ring_nf
  have hscale : ((⟨(digitsToNat (a :: hd1') : Int) * 60, 0⟩ : Dec).add
      ⟨(digitsToNat md : Int), 0⟩).scale = 0 := rfl
  have hpos' : ¬ ((⟨(digitsToNat (a :: hd1') : Int) * 60, 0⟩ : Dec).add
      ⟨(digitsToNat md : Int), 0⟩).num ≤ 0 := by
    rw [hnum]
    push_cast
    omega
  rw [parseDuration_regex_result _ (by simp) _ _
    (by rw [htrim]; exact hpf)
    (by rw [htrim]; exact hoursTotal_digits _ _ hffmh hne1 hd1)
    (by rw [htrim]; exact minutesTotal_digits _ _ hffmm hne2 hd2), if_neg hpos']
  unfold Dec.toInt64Trunc
  rw [hnum, hscale]
  simp only [pow_zero, Int.tdiv_one]
  push_cast
  ring

/-- ParseDuration on an integral hours-only form such as "2h". -/
lemma parseDuration_h (hd : List Char) (hne1 : hd ≠ [])
    (hd1 : ∀ c ∈ hd, c.isDigit = true) (hpos : 0 < digitsToNat hd) :
    ParseDuration (String.mk (hd ++ ['h'])) = .ok (60 * digitsToNat hd) := by
  have htrim : trimChars (hd ++ ['h']) = hd ++ ['h'] := by
    refine trimChars_no_space _ ?_
    intro c hc
    rcases List.mem_append.mp hc with h | h
    · exact digit_not_space (hd1 c h)
    · simp at h
      subst h
      decide
  have hpf : parseFloatDec (hd ++ ['h']) = none :=
    parseFloatDec_stop hd 'h' [] hne1 hd1 (by decide) (by decide)
  have hffmh : findFirstMatch matchHoursAt (hd ++ ['h']) = some hd :=
    ffm_hours_digits_h hd hne1 hd1 []
  have hffmm : findFirstMatch matchMinutesAt (hd ++ ['h']) = none := by
    rw [ffm_minutes_skip hd 'h' [] hd1 (by decide) (by decide) (by decide)]
    rfl
  have hnum : ((⟨(digitsToNat hd : Int) * 60, 0⟩ : Dec).add ⟨0, 0⟩).num =
      ((60 * digitsToNat hd : Nat) : Int) := by
    simp [Dec.add]
    ring_nf
  have hscale : ((⟨(digitsToNat hd : Int) * 60, 0⟩ : Dec).add ⟨0, 0⟩).scale = 0 := rfl
  have hpos' : ¬ ((⟨(digitsToNat hd : Int) * 60, 0⟩ : Dec).add ⟨0, 0⟩).num ≤ 0 := by
    rw [hnum]
    push_cast
    omega
  rw [parseDuration_regex_result _ (by simp [List.append_eq_nil]) _ _
    (by rw [htrim]; exact hpf)
    (by rw [htrim]; exact hoursTotal_digits _ _ hffmh hne1 hd1)
    (by rw [htrim]; exact minutesTotal_of_ffm_none _ hffmm), if_neg hpos']
  unfold Dec.toInt64Trunc
  rw [hnum, hscale]
  simp only [pow_zero, Int.tdiv_one]
  push_cast
  ring

/-- ParseDuration on an integral minutes-only form such as "45m". -/
lemma parseDuration_m (md : List Char) (hne2 : md ≠ [])
    (hd2 : ∀ c ∈ md, c.isDigit = true) (hpos : 0 < digitsToNat md) :
    ParseDuration (String.mk (md ++ ['m'])) = .ok (digitsToNat md) := by
  have htrim : trimChars (md ++ ['m']) = md ++ ['m'] := by
    refine trimChars_no_space _ ?_
    intro c hc
    rcases List.mem_append.mp hc with h | h
    · exact digit_not_space (hd2 c h)
    · simp at h
      subst h
      decide
  have hpf : parseFloatDec (md ++ ['m']) = none :=
    parseFloatDec_stop md 'm' [] hne2 hd2 (by decide) (by decide)
  have hffmh : findFirstMatch matchHoursAt (md ++ ['m']) = none := by
    rw [ffm_hours_skip md 'm' [] hd2 (by decide) (by decide) (by decide) (by decide)]
    rfl
  have hffmm : findFirstMatch matchMinutesAt (md ++ ['m']) = some md :=
    ffm_minutes_digits_m md hne2 hd2 []
  have hnum : ((⟨0, 0⟩ : Dec).add ⟨(digitsToNat md : Int), 0⟩).num =
      ((digitsToNat md : Nat) : Int) := by
    simp [Dec.add]
  have hscale : ((⟨0, 0⟩ : Dec).add ⟨(digitsToNat md : Int), 0⟩).scale = 0 := rfl
  have hpos' : ¬ ((⟨0, 0⟩ : Dec).add ⟨(digitsToNat md : Int), 0⟩).num ≤ 0 := by
    rw [hnum]
    omega
  rw [parseDuration_regex_result _ (by simp [List.append_eq_nil]) _ _
    (by rw [htrim]; exact hpf)
    (by rw [htrim]; exact hoursTotal_of_ffm_none _ hffmh)
    (by rw [htrim]; exact minutesTotal_digits _ _ hffmm hne2 hd2), if_neg hpos']
  unfold Dec.toInt64Trunc
  rw [hnum, hscale]
  simp only [pow_zero, Int.tdiv_one]

/-- ParseDuration on a bare positive integer such as "90". -/
lemma parseDuration_bare (nd : List Char) (hne : nd ≠ [])
    (hdig : ∀ c ∈ nd, c.isDigit = true) (hpos : 0 < digitsToNat nd) :
    ParseDuration (String.mk nd) = .ok (digitsToNat nd) := by
  have htrim : trimChars nd = nd :=
    trimChars_no_space _ (fun c hc => digit_not_space (hdig c hc))
  have hpf : parseFloatDec nd = some ⟨(digitsToNat nd : Int), 0⟩ :=
    parseFloatDec_digits nd hne hdig
  rw [parseDuration_plain_result _ hne _ (by rw [htrim]; exact hpf),
    if_neg (by push_cast; omega)]
  unfold Dec.toInt64Trunc
  simp only [pow_zero, Int.tdiv_one]

/-- ParseDuration on a fractional hours form such as "1.5h": the exact
value 60 * (ip.fp) is assumed to be the integer z. -/
lemma parseDuration_fh (ip fp : List Char) (hip : ip ≠ [])
    (hdip : ∀ c ∈ ip, c.isDigit = true) (hdfp : ∀ c ∈ fp, c.isDigit = true)
    (z : Int)
    (hz : (60 : Int) * ((digitsToNat ip * 10 ^ fp.length + digitsToNat fp : Nat) : Int) =
      z * 10 ^ fp.length)
    (hzpos : 0 < z) :
    ParseDuration (String.mk (ip ++ '.' :: (fp ++ ['h']))) = .ok z := by
  have htrim : trimChars (ip ++ '.' :: (fp ++ ['h'])) = ip ++ '.' :: (fp ++ ['h']) := by
    refine trimChars_no_space _ ?_
    intro c hc
    simp only [List.mem_append, List.mem_cons] at hc
    rcases hc with h | h | h
    · exact digit_not_space (hdip c h)
    · subst h
      decide
    · rcases h with h2 | h2 | h2
      · exact digit_not_space (hdfp c h2)
      · subst h2
        decide
      · simp at h2
  have hpf : parseFloatDec (ip ++ '.' :: (fp ++ ['h'])) = none :=
    parseFloatDec_dot_stop ip fp 'h' [] hip hdip hdfp (by decide)
  have hffmh : findFirstMatch matchHoursAt (ip ++ '.' :: (fp ++ ['h'])) =
      some (ip ++ '.' :: fp) :=
    ffm_hours_digits_dot ip fp hip hdip hdfp []
  have hffmm : findFirstMatch matchMinutesAt (ip ++ '.' :: (fp ++ ['h'])) = none := by
    rw [ffm_minutes_skip ip '.' (fp ++ ['h']) hdip (by decide) (by decide) (by decide),
      ffm_minutes_skip fp 'h' [] hdfp (by decide) (by decide) (by decide)]
    rfl
  have hht : hoursTotal (ip ++ '.' :: (fp ++ ['h'])) =
      .ok ⟨((digitsToNat ip * 10 ^ fp.length + digitsToNat fp : Nat) : Int) * 60,
        fp.length⟩ := by
    unfold hoursTotal
    simp only [hffmh, parseFloatDec_digits_dot ip fp hip hdip hdfp, Dec.scaleMul]
  have hnum : ((⟨((digitsToNat ip * 10 ^ fp.length + digitsToNat fp : Nat) : Int) * 60,
      fp.length⟩ : Dec).add ⟨0, 0⟩).num = z * 10 ^ fp.length := by
    simp [Dec.add]
    push_cast at hz ⊢
    linarith [hz]
  have hscale : ((⟨((digitsToNat ip * 10 ^ fp.length + digitsToNat fp : Nat) : Int) * 60,
      fp.length⟩ : Dec).add ⟨0, 0⟩).scale = fp.length := by
    simp [Dec.add]
  have hpow : (0 : Int) < 10 ^ fp.length := by positivity
  have hpos' : ¬ ((⟨((digitsToNat ip * 10 ^ fp.length + digitsToNat fp : Nat) : Int) * 60,
      fp.length⟩ : Dec).add ⟨0, 0⟩).num ≤ 0 := by
    rw [hnum]
    push_neg
    exact mul_pos hzpos hpow
  rw [parseDuration_regex_result _ (by simp [List.append_eq_nil]) _ _
    (by rw [htrim]; exact hpf)
    (by rw [htrim]; exact hht)
    (by rw [htrim]; exact minutesTotal_of_ffm_none _ hffmm), if_neg hpos']
  unfold Dec.toInt64Trunc
  rw [hnum, hscale, Int.mul_tdiv_cancel z (by positivity)]

instance : DecidableEq (Except String Int) := fun x y =>
  match x, y with
  | .ok a, .ok b =>
    if h : a = b then .isTrue (by rw [h]) else .isFalse (fun hh => h (Except.ok.inj hh))
  | .error a, .error b =>
    if h : a = b then .isTrue (by rw [h]) else .isFalse (fun hh => h (Except.error.inj hh))
  | .ok _, .error _ => .isFalse (fun hh => Except.noConfusion hh)
  | .error _, .ok _ => .isFalse (fun hh => Except.noConfusion hh)

lemma dec_toQ_nonpos (d : Dec) : d.toQ ≤ 0 ↔ d.num ≤ 0 := by
  unfold Dec.toQ
  have hp : (0 : ℚ) < 10 ^ d.scale := by positivity
  rw [div_le_iff₀ hp, zero_mul]
  exact_mod_cast Iff.rfl

lemma dec_toQ_pos (d : Dec) : 0 < d.toQ ↔ 0 < d.num := by
  rw [← not_le, ← not_le, dec_toQ_nonpos]

lemma toInt64Trunc_eq_floor (d : Dec) (h : 0 ≤ d.num) : d.toInt64Trunc = ⌊d.toQ⌋ := by
  unfold Dec.toInt64Trunc Dec.toQ
  rw [Int.tdiv_eq_ediv h (by positivity)]
  rw [show ((10 : ℚ) ^ d.scale) = ((10 ^ d.scale : ℕ) : ℚ) by push_cast; ring,
    Rat.floor_intCast_div_natCast]
  congr 1
  push_cast
  ring

lemma string_data_ne_nil (s : String) (h : s ≠ "") : s.data ≠ [] := by
  intro hh
  exact h (congrArg String.mk hh)

lemma rawTotal_plain (s : String) (num : Dec)
    (h : parseFloatDec (trimChars s.data) = some num) : rawTotal s = some num := by
  unfold rawTotal
  simp only [h]

lemma parseDuration_rawTotal_pos (s : String) (d : Dec) (h : rawTotal s = some d)
    (hs : s ≠ "") (hpos : 0 < d.num) : ParseDuration s = .ok d.toInt64Trunc := by
  have hdata := string_data_ne_nil s hs
  have hshow : ParseDuration s = ParseDuration (String.mk s.data) := rfl
  rw [hshow, parseDuration_unfold s.data hdata]
  unfold rawTotal at h
  rcases hpf : parseFloatDec (trimChars s.data) with _ | num
  · simp only [hpf] at h ⊢
    rcases hht : hoursTotal (trimChars s.data) with e | hq
    · simp only [hht] at h
      exact Option.noConfusion h
    · rcases hmt : minutesTotal (trimChars s.data) with e | mq
      · simp only [hht, hmt] at h
        exact Option.noConfusion h
      · simp only [hht, hmt, Option.some.injEq] at h
        simp only [hht, hmt]
        rw [h, if_neg (by omega)]
  · simp only [hpf, Option.some.injEq] at h
    subst h
    simp only [hpf]
    rw [if_neg (by omega)]

lemma parseDuration_rawTotal_nonpos (s : String) (d : Dec) (h : rawTotal s = some d)
    (hle : d.num ≤ 0) : (ParseDuration s).isOk = false := by
  by_cases hs : s = ""
  · subst hs
    rfl
  · have hdata := string_data_ne_nil s hs
    have hshow : ParseDuration s = ParseDuration (String.mk s.data) := rfl
    rw [hshow, parseDuration_unfold s.data hdata]
    unfold rawTotal at h
    rcases hpf : parseFloatDec (trimChars s.data) with _ | num
    · simp only [hpf] at h ⊢
      rcases hht : hoursTotal (trimChars s.data) with e | hq
      · simp only [hht]
        rfl
      · rcases hmt : minutesTotal (trimChars s.data) with e | mq
        · simp only [hht, hmt]
          rfl
        · simp only [hht, hmt, Option.some.injEq] at h
          simp only [hht, hmt]
          rw [h, if_pos hle]
          rfl
    · simp only [hpf, Option.some.injEq] at h
      subst h
      simp only [hpf]
      rw [if_pos hle]
      rfl

/-- C4: ParseDuration returns the expected minutes on the four supported
shapes — integral "Hh Mm", integral "Hh", fractional "I.Fh" (whose exact
value times 60 is the integer z), integral "Mm" and a bare positive
integer — including the documented examples; it fails on each of "",
"invalid", "0", "0h 0m", "-30m", "h" and "m"; and it fails on every input
whose computed raw total (before the positivity gate) is ≤ 0. -/
theorem parseDuration_spec :
    (∀ hd md : List Char, hd ≠ [] → (∀ c ∈ hd, c.isDigit = true) → md ≠ [] →
      (∀ c ∈ md, c.isDigit = true) → 0 < 60 * digitsToNat hd + digitsToNat md →
      ParseDuration (String.mk (hd ++ 'h' :: ' ' :: (md ++ ['m']))) =
        .ok (60 * digitsToNat hd + digitsToNat md)) ∧
    (∀ hd : List Char, hd ≠ [] → (∀ c ∈ hd, c.isDigit = true) → 0 < digitsToNat hd →
      ParseDuration (String.mk (hd ++ ['h'])) = .ok (60 * digitsToNat hd)) ∧
    (∀ ip fp : List Char, ip ≠ [] → (∀ c ∈ ip, c.isDigit = true) →
      (∀ c ∈ fp, c.isDigit = true) → ∀ z : Int,
      (60 : Int) * ((digitsToNat ip * 10 ^ fp.length + digitsToNat fp : Nat) : Int) =
        z * 10 ^ fp.length → 0 < z →
      ParseDuration (String.mk (ip ++ '.' :: (fp ++ ['h']))) = .ok z) ∧
    (∀ md : List Char, md ≠ [] → (∀ c ∈ md, c.isDigit = true) → 0 < digitsToNat md →
      ParseDuration (String.mk (md ++ ['m'])) = .ok (digitsToNat md)) ∧
    (∀ nd : List Char, nd ≠ [] → (∀ c ∈ nd, c.isDigit = true) → 0 < digitsToNat nd →
      ParseDuration (String.mk nd) = .ok (digitsToNat nd)) ∧
    (ParseDuration "1h 30m" = .ok 90 ∧ ParseDuration "1.5h" = .ok 90 ∧
      ParseDuration "90" = .ok 90) ∧
    ((ParseDuration "").isOk = false ∧ (ParseDuration "invalid").isOk = false ∧
      (ParseDuration "0").isOk = false ∧ (ParseDuration "0h 0m").isOk = false ∧
      (ParseDuration "-30m").isOk = false ∧ (ParseDuration "h").isOk = false ∧
      (ParseDuration "m").isOk = false) ∧
    (∀ (s : String) (d : Dec), rawTotal s = some d → d.toQ ≤ 0 →
      (ParseDuration s).isOk = false) :=
  ⟨parseDuration_hm, parseDuration_h, parseDuration_fh, parseDuration_m, parseDuration_bare,
   ⟨by decide, by decide, by decide⟩,
   ⟨by decide, by decide, by decide, by decide, by decide, by decide, by decide⟩,
   fun s d h hle => parseDuration_rawTotal_nonpos s d h ((dec_toQ_nonpos d).mp hle)⟩

theorem parseDuration_spec_witness :
    ParseDuration (String.mk (['1'] ++ 'h' :: ' ' :: (['3', '0'] ++ ['m']))) =
      .ok (60 * digitsToNat ['1'] + digitsToNat ['3', '0']) ∧
    (rawTotal "-30m" = some ⟨-30, 0⟩ ∧ (⟨-30, 0⟩ : Dec).toQ ≤ 0 ∧
      (ParseDuration "-30m").isOk = false) :=
  ⟨parseDuration_spec.1 ['1'] ['3', '0'] (by decide) (by decide) (by decide) (by decide)
    (by decide),
   by decide,
   by norm_num [Dec.toQ],
   parseDuration_spec.2.2.2.2.2.2.2 "-30m" ⟨-30, 0⟩ (by decide) (by norm_num [Dec.toQ])⟩

/-- C9: on success ParseDuration truncates the raw total toward zero (for
the positive totals reachable on success this is the floor); in particular
every plain-number input with value strictly between 0 and 1 parses
successfully to 0 minutes, e.g. "0.5", so a successful parse can return a
non-positive minute count. -/
theorem parseDuration_truncation :
    (∀ (s : String) (d : Dec) (n : Int), rawTotal s = some d → 0 < d.num →
      ParseDuration s = .ok n → n = ⌊d.toQ⌋) ∧
    (∀ (s : String) (d : Dec), s ≠ "" → parseFloatDec (trimChars s.data) = some d →
      0 < d.toQ → d.toQ < 1 → ParseDuration s = .ok 0) ∧
    ParseDuration "0.5" = .ok 0 := by
  refine ⟨?_, ?_, by decide⟩
  · intro s d n h hpos hok
    by_cases hs : s = ""
    · subst hs
      have hrfl : ParseDuration "" = .error "duration cannot be empty" := rfl
      rw [hrfl] at hok
      exact Except.noConfusion hok
    · have := parseDuration_rawTotal_pos s d h hs hpos
      rw [this] at hok
      have hn : n = d.toInt64Trunc := (Except.ok.inj hok).symm
      rw [hn, toInt64Trunc_eq_floor d (le_of_lt hpos)]
  · intro s d hs hpf hpos hlt
    have hraw := rawTotal_plain s d hpf
    have hnum : 0 < d.num := (dec_toQ_pos d).mp hpos
    have := parseDuration_rawTotal_pos s d hraw hs hnum
    rw [this]
    have hfl : d.toInt64Trunc = 0 := by
      rw [toInt64Trunc_eq_floor d (le_of_lt hnum), Int.floor_eq_zero_iff, Set.mem_Ico]
      exact ⟨le_of_lt hpos, hlt⟩
    rw [hfl]

theorem parseDuration_truncation_witness :
    (rawTotal "0.5" = some ⟨5, 1⟩ ∧ 0 < (⟨5, 1⟩ : Dec).num ∧
      ParseDuration "0.5" = .ok 0 ∧ (0 : Int) = ⌊(⟨5, 1⟩ : Dec).toQ⌋) ∧
    ("0.5" : String) ≠ "" ∧ parseFloatDec (trimChars ("0.5" : String).data) = some ⟨5, 1⟩ ∧
      0 < (⟨5, 1⟩ : Dec).toQ ∧ (⟨5, 1⟩ : Dec).toQ < 1 :=
  ⟨⟨by decide, by decide, by decide,
    parseDuration_truncation.1 "0.5" ⟨5, 1⟩ 0 (by decide) (by decide) (by decide)⟩,
   by decide, by decide, by norm_num [Dec.toQ], by norm_num [Dec.toQ]⟩

/-- The twenty-character repetition of "e8" checked against bytes 21 to 40. -/
def e8Pat : String := "e8e8e8e8e8e8e8e8e8e8"

/-- The commit-hash corruption check duplicated inline in CreateEntry
(store.go lines 205 to 217) and UpdateEntry (store.go lines 290 to 301):
for a non-empty hash of at least 40 bytes, reject when the first 20 bytes
equal the next 20, and separately reject when the hash is exactly 40 bytes
and bytes 21 to 40 are `e8Pat`.  Returns the error message, or `none` when
the hash passes. -/
def hashCorruptionError (h : String) : Option String :=
  if h ≠ "" ∧ 40 ≤ h.length then
    if String.mk (h.data.take 20) = String.mk ((h.data.drop 20).take 20) then
      some ("invalid commit hash: repeated pattern detected - possible corruption (hash: " ++
        h ++ ")")
    else if h.length = 40 ∧ String.mk (h.data.drop 20) = e8Pat then
      some ("invalid commit hash: e8e8 corruption pattern detected (hash: " ++ h ++ ")")
    else none
  else none

/-- CreateEntry, store.go lines 198 to 244.  The generated uuid and the
wall-clock write time are passed in as `newID` and `now`; a bbolt `Put`
cannot fail in the pure model. -/
def CreateEntry (s : Store) (newID : String) (now : Int) (projectID : String)
    (duration : Int) (message commitHash : String) (invoiced : Bool) (createdAt : Int) :
    Except String (Entry × Store) :=
  match GetProject s projectID with
  | .error e => .error ("project not found: " ++ e)
  | .ok _ =>
    match hashCorruptionError commitHash with
    | some err => .error err
    | none =>
      let entry : Entry :=
        { ID := newID, ProjectID := projectID, Duration := duration, Message := message,
          CommitHash := commitHash, Invoiced := invoiced, CreatedAt := createdAt,
          UpdatedAt := now }
      .ok (entry, { s with entries := s.entries ++ [entry] })

/-- UpdateEntry, store.go lines 267 to 325: load by id, apply only supplied
fields, validate a supplied commit hash, always refresh `UpdatedAt`, and
persist.  Every error inside the transaction is wrapped with
"failed to update entry: " by the outer `fmt.Errorf`. -/
def UpdateEntry (s : Store) (now : Int) (id : String) (duration : Option Int)
    (message commitHash : Option String) (invoiced : Option Bool) (createdAt : Option Int) :
    Except String (Entry × Store) :=
  match s.entries.find? (fun e => e.ID = id) with
  | none => .error "failed to update entry: entry not found"
  | some e0 =>
    let e1 := match duration with
      | some d => { e0 with Duration := d }
      | none => e0
    let e2 := match message with
      | some msg => { e1 with Message := msg }
      | none => e1
    let e3r : Except String Entry := match commitHash with
      | none => .ok e2
      | some nh =>
        match hashCorruptionError nh with
        | some err => .error err
        | none => .ok { e2 with CommitHash := nh }
    match e3r with
    | .error err => .error ("failed to update entry: " ++ err)
    | .ok e3 =>
      let e4 := match invoiced with
        | some b => { e3 with Invoiced := b }
        | none => e3
      let e5 := match createdAt with
        | some t => { e4 with CreatedAt := t }
        | none => e4
      let e6 := { e5 with UpdatedAt := now }
      .ok (e6, { s with entries := s.entries.map (fun x => if x.ID = id then e6 else x) })

lemma createEntry_error_of_some (s : Store) (newID : String) (now : Int) (projectID : String)
    (duration : Int) (message h : String) (invoiced : Bool) (createdAt : Int) (err : String)
    (hp : (GetProject s projectID).isOk = true) (hv : hashCorruptionError h = some err) :
    CreateEntry s newID now projectID duration message h invoiced createdAt = .error err := by
  unfold CreateEntry
  rcases hgp : GetProject s projectID with e | p
  · rw [hgp] at hp
    exact Bool.noConfusion hp
  · simp only [hgp, hv]

lemma createEntry_ok_of_none (s : Store) (newID : String) (now : Int) (projectID : String)
    (duration : Int) (message h : String) (invoiced : Bool) (createdAt : Int)
    (hp : (GetProject s projectID).isOk = true) (hv : hashCorruptionError h = none) :
    ∃ r, CreateEntry s newID now projectID duration message h invoiced createdAt = .ok r := by
  unfold CreateEntry
  rcases hgp : GetProject s projectID with e | p
  · rw [hgp] at hp
    exact Bool.noConfusion hp
  · simp only [hgp, hv]
    exact ⟨_, rfl⟩

lemma updateEntry_error_of_some (s : Store) (now : Int) (id : String) (d2 : Option Int)
    (m2 : Option String) (nh : String) (i2 : Option Bool) (c2 : Option Int) (e0 : Entry)
    (err : String) (hfind : s.entries.find? (fun e => e.ID = id) = some e0)
    (hv : hashCorruptionError nh = some err) :
    UpdateEntry s now id d2 m2 (some nh) i2 c2 =
      .error ("failed to update entry: " ++ err) := by
  unfold UpdateEntry
  simp only [hfind, hv]

lemma updateEntry_ok_of_none (s : Store) (now : Int) (id : String) (d2 : Option Int)
    (m2 : Option String) (nh : String) (i2 : Option Bool) (c2 : Option Int) (e0 : Entry)
    (hfind : s.entries.find? (fun e => e.ID = id) = some e0)
    (hv : hashCorruptionError nh = none) :
    ∃ r, UpdateEntry s now id d2 m2 (some nh) i2 c2 = .ok r := by
  unfold UpdateEntry
  simp only [hfind, hv]
  exact ⟨_, rfl⟩

lemma hashCorruptionError_some_of_rep (h : String) (h1 : h ≠ "") (h2 : 40 ≤ h.length)
    (h3 : String.mk (h.data.take 20) = String.mk ((h.data.drop 20).take 20)) :
    ∃ err, hashCorruptionError h = some err := by
  unfold hashCorruptionError
  split_ifs with hc <;>
    first
      | exact ⟨_, rfl⟩
      | exact absurd ⟨h1, h2⟩ hc

lemma hashCorruptionError_some_of_e8 (h : String) (h1 : h ≠ "") (h4 : h.length = 40)
    (h5 : String.mk (h.data.drop 20) = e8Pat) :
    ∃ err, hashCorruptionError h = some err := by
  unfold hashCorruptionError
  split_ifs with hc hrep he8 <;>
    first
      | exact ⟨_, rfl⟩
      | exact absurd ⟨h4, h5⟩ he8
      | exact absurd ⟨h1, (by omega : 40 ≤ h.length)⟩ hc

lemma hashCorruptionError_none_of_pass (h : String)
    (hp : h = "" ∨ h.length < 40 ∨
      (String.mk (h.data.take 20) ≠ String.mk ((h.data.drop 20).take 20) ∧
       ¬(h.length = 40 ∧ String.mk (h.data.drop 20) = e8Pat))) :
    hashCorruptionError h = none := by
  unfold hashCorruptionError
  split_ifs with hc hrep he8 <;>
    first
      | rfl
      | (rcases hp with h1 | h1 | ⟨h1, h2⟩
         · exact (hc.1 h1).elim
         · exact absurd hc.2 (by omega)
         · first
             | exact (h1 hrep).elim
             | exact (h2 he8).elim)

/-- C2 counterexample: a 41-character hash whose characters 21 to 40 are
exactly the "e8" repetition (and whose halves differ) is accepted by both
createEntry and updateEntry, because the code applies the e8 check only to
hashes of length exactly 40 — the claim as stated demands rejection for
every hash of length at least 40. -/
theorem hashValidation_counterexample :
    ("aaaaaaaaaaaaaaaaaaaae8e8e8e8e8e8e8e8e8e8f" : String) ≠ "" ∧
    40 ≤ ("aaaaaaaaaaaaaaaaaaaae8e8e8e8e8e8e8e8e8e8f" : String).length ∧
    String.mk ((("aaaaaaaaaaaaaaaaaaaae8e8e8e8e8e8e8e8e8e8f" : String).data.drop 20).take 20) =
      e8Pat ∧
    (CreateEntry
      ⟨[{ ID := "p1", Name := "n", GitRepoPath := "g", CreatedAt := 0, UpdatedAt := 0 }], []⟩
      "e9" 0 "p1" 60 "msg" "aaaaaaaaaaaaaaaaaaaae8e8e8e8e8e8e8e8e8e8f" false 0).isOk = true ∧
    (UpdateEntry
      ⟨[{ ID := "p1", Name := "n", GitRepoPath := "g", CreatedAt := 0, UpdatedAt := 0 }],
       [{ ID := "e1", ProjectID := "p1", Duration := 60, Message := "m", CommitHash := "",
          Invoiced := false, CreatedAt := 0, UpdatedAt := 0 }]⟩
      0 "e1" none none (some "aaaaaaaaaaaaaaaaaaaae8e8e8e8e8e8e8e8e8e8f") none
      none).isOk = true := by
  refine ⟨by decide, by decide, by decide, by decide, by decide⟩

/-- C2 amended: for a non-empty hash of length at least 40, both createEntry
and updateEntry fail when the first 20 characters equal the next 20; they
fail when the hash has length exactly 40 and characters 21 to 40 are the
"e8" repetition; and a hash matching neither pattern (empty, shorter than
40, or with differing halves and no exact-40 e8 tail) passes the check in
both operations. -/
theorem hashValidation_amended (s : Store) (newID : String) (now : Int) (projectID : String)
    (duration : Int) (message h : String) (invoiced : Bool) (createdAt : Int) (id : String)
    (d2 : Option Int) (m2 : Option String) (i2 : Option Bool) (c2 : Option Int) :
    (h ≠ "" → 40 ≤ h.length →
      String.mk (h.data.take 20) = String.mk ((h.data.drop 20).take 20) →
      (GetProject s projectID).isOk = true →
      (∃ err, CreateEntry s newID now projectID duration message h invoiced createdAt =
        .error err) ∧
      (∀ e0, s.entries.find? (fun e => e.ID = id) = some e0 →
        ∃ err, UpdateEntry s now id d2 m2 (some h) i2 c2 = .error err)) ∧
    (h ≠ "" → h.length = 40 → String.mk (h.data.drop 20) = e8Pat →
      (GetProject s projectID).isOk = true →
      (∃ err, CreateEntry s newID now projectID duration message h invoiced createdAt =
        .error err) ∧
      (∀ e0, s.entries.find? (fun e => e.ID = id) = some e0 →
        ∃ err, UpdateEntry s now id d2 m2 (some h) i2 c2 = .error err)) ∧
    ((h = "" ∨ h.length < 40 ∨
      (String.mk (h.data.take 20) ≠ String.mk ((h.data.drop 20).take 20) ∧
       ¬(h.length = 40 ∧ String.mk (h.data.drop 20) = e8Pat))) →
      (GetProject s projectID).isOk = true →
      (∃ r, CreateEntry s newID now projectID duration message h invoiced createdAt =
        .ok r) ∧
      (∀ e0, s.entries.find? (fun e => e.ID = id) = some e0 →
        ∃ r, UpdateEntry s now id d2 m2 (some h) i2 c2 = .ok r)) := by
  refine ⟨?_, ?_, ?_⟩
  · intro h1 h2 h3 hp
    obtain ⟨err, herr⟩ := hashCorruptionError_some_of_rep h h1 h2 h3
    exact ⟨⟨err, createEntry_error_of_some _ _ _ _ _ _ _ _ _ _ hp herr⟩,
      fun e0 hfind => ⟨_, updateEntry_error_of_some _ _ _ _ _ _ _ _ _ _ hfind herr⟩⟩
  · intro h1 h4 h5 hp
    obtain ⟨err, herr⟩ := hashCorruptionError_some_of_e8 h h1 h4 h5
    exact ⟨⟨err, createEntry_error_of_some _ _ _ _ _ _ _ _ _ _ hp herr⟩,
      fun e0 hfind => ⟨_, updateEntry_error_of_some _ _ _ _ _ _ _ _ _ _ hfind herr⟩⟩
  · intro hpass hp
    have hnone := hashCorruptionError_none_of_pass h hpass
    exact ⟨createEntry_ok_of_none _ _ _ _ _ _ _ _ _ hp hnone,
      fun e0 hfind => updateEntry_ok_of_none _ _ _ _ _ _ _ _ _ hfind hnone⟩

theorem hashValidation_amended_witness :
    ((∃ err, CreateEntry
      ⟨[{ ID := "p1", Name := "n", GitRepoPath := "g", CreatedAt := 0, UpdatedAt := 0 }], []⟩
      "e9" 0 "p1" 60 "msg"
      "aaaaaaaaaaaaaaaaaaaaaaaaaaaaaaaaaaaaaaaa" false 0 = .error err)) ∧
    ((∃ err, CreateEntry
      ⟨[{ ID := "p1", Name := "n", GitRepoPath := "g", CreatedAt := 0, UpdatedAt := 0 }], []⟩
      "e9" 0 "p1" 60 "msg"
      "xxxxxxxxxxxxxxxxxxxxe8e8e8e8e8e8e8e8e8e8" false 0 = .error err)) ∧
    ((∃ r, CreateEntry
      ⟨[{ ID := "p1", Name := "n", GitRepoPath := "g", CreatedAt := 0, UpdatedAt := 0 }], []⟩
      "e9" 0 "p1" 60 "msg" "abc123" false 0 = .ok r)) :=
  ⟨((hashValidation_amended
      ⟨[{ ID := "p1", Name := "n", GitRepoPath := "g", CreatedAt := 0, UpdatedAt := 0 }], []⟩
      "e9" 0 "p1" 60 "msg" "aaaaaaaaaaaaaaaaaaaaaaaaaaaaaaaaaaaaaaaa" false 0 "x" none none
      none none).1 (by decide) (by decide) (by decide) (by decide)).1,
   ((hashValidation_amended
      ⟨[{ ID := "p1", Name := "n", GitRepoPath := "g", CreatedAt := 0, UpdatedAt := 0 }], []⟩
      "e9" 0 "p1" 60 "msg" "xxxxxxxxxxxxxxxxxxxxe8e8e8e8e8e8e8e8e8e8" false 0 "x" none none
      none none).2.1 (by decide) (by decide) (by decide) (by decide)).1,
   ((hashValidation_amended
      ⟨[{ ID := "p1", Name := "n", GitRepoPath := "g", CreatedAt := 0, UpdatedAt := 0 }], []⟩
      "e9" 0 "p1" 60 "msg" "abc123" false 0 "x" none none
      none none).2.2 (by decide) (by decide)).1⟩

/-- Boolean prefix test on character lists. -/
def isPrefixB : List Char → List Char → Bool
  | [], _ => true
  | _ :: _, [] => false
  | a :: as, b :: bs => a == b && isPrefixB as bs

/-- Boolean substring test: does the needle occur contiguously in the hay? -/
def containsB (needle : List Char) : List Char → Bool
  | [] => isPrefixB needle []
  | c :: cs => isPrefixB needle (c :: cs) || containsB needle cs

/-- "The message includes the offending input": substring containment. -/
def strContains (hay needle : String) : Bool :=
  containsB needle.data hay.data

lemma isPrefixB_iff (n : List Char) : ∀ h : List Char,
    isPrefixB n h = true ↔ ∃ t, h = n ++ t := by
  induction n with
  | nil =>
    intro h
    simp [isPrefixB]
  | cons a as ih =>
    intro h
    cases h with
    | nil =>
      simp [isPrefixB]
    | cons b bs =>
      rw [show isPrefixB (a :: as) (b :: bs) = (a == b && isPrefixB as bs) from rfl]
      rw [Bool.and_eq_true, beq_iff_eq, ih bs]
      constructor
      · rintro ⟨rfl, t, rfl⟩
        exact ⟨t, rfl⟩
      · rintro ⟨t, ht⟩
        rw [List.cons_append] at ht
        injection ht with h1 h2
        exact ⟨h1.symm, t, h2⟩

lemma containsB_iff (n : List Char) : ∀ h : List Char,
    containsB n h = true ↔ ∃ pre post, h = pre ++ n ++ post := by
  intro h
  induction h with
  | nil =>
    rw [show containsB n [] = isPrefixB n [] from rfl, isPrefixB_iff]
    constructor
    · rintro ⟨t, ht⟩
      rcases List.append_eq_nil.mp ht.symm with ⟨rfl, rfl⟩
      exact ⟨[], [], rfl⟩
    · rintro ⟨pre, post, hp⟩
      rcases List.append_eq_nil.mp hp.symm with ⟨hh, rfl⟩
      rcases List.append_eq_nil.mp hh with ⟨rfl, rfl⟩
      exact ⟨[], rfl⟩
  | cons c cs ih =>
    rw [show containsB n (c :: cs) = (isPrefixB n (c :: cs) || containsB n cs) from rfl,
      Bool.or_eq_true, isPrefixB_iff, ih]
    constructor
    · rintro (⟨t, ht⟩ | ⟨pre, post, hp⟩)
      · exact ⟨[], t, by simp [ht]⟩
      · exact ⟨c :: pre, post, by simp [hp]⟩
    · rintro ⟨pre, post, hp⟩
      cases pre with
      | nil =>
        exact Or.inl ⟨post, by simpa using hp⟩
      | cons d pre1 =>
        rw [List.cons_append, List.cons_append] at hp
        injection hp with h1 h2
        exact Or.inr ⟨pre1, post, h2⟩

lemma strContains_append (A h B : String) : strContains (A ++ h ++ B) h = true := by
  unfold strContains
  rw [containsB_iff]
  exact ⟨A.data, B.data, by simp⟩

lemma hoursTotal_error_shape (inp : List Char) (e : String)
    (h : hoursTotal inp = .error e) :
    ∃ cap, e = "invalid hours value: failed to parse " ++ cap := by
  unfold hoursTotal at h
  rcases hff : findFirstMatch matchHoursAt inp with _ | cap
  · simp only [hff] at h
    exact Except.noConfusion h
  · simp only [hff] at h
    rcases hpc : parseFloatDec cap with _ | d
    · simp only [hpc] at h
      exact ⟨String.mk cap, (Except.error.inj h).symm⟩
    · simp only [hpc] at h
      exact Except.noConfusion h

lemma minutesTotal_error_shape (inp : List Char) (e : String)
    (h : minutesTotal inp = .error e) :
    ∃ cap, e = "invalid minutes value: failed to parse " ++ cap := by
  unfold minutesTotal at h
  rcases hff : findFirstMatch matchMinutesAt inp with _ | cap
  · simp only [hff] at h
    exact Except.noConfusion h
  · simp only [hff] at h
    rcases hpc : parseFloatDec cap with _ | d
    · simp only [hpc] at h
      exact ⟨String.mk cap, (Except.error.inj h).symm⟩
    · simp only [hpc] at h
      exact Except.noConfusion h

lemma parseDuration_error_shape (s : String) (err : String)
    (h : ParseDuration s = .error err) :
    err = "duration cannot be empty" ∨ err = "duration must be positive" ∨ err = fmtMsg ∨
    (∃ cap, err = "invalid hours value: failed to parse " ++ cap) ∨
    (∃ cap, err = "invalid minutes value: failed to parse " ++ cap) := by
  by_cases hs : s = ""
  · subst hs
    have : ParseDuration "" = .error "duration cannot be empty" := rfl
    rw [this] at h
    exact Or.inl (Except.error.inj h).symm
  · have hdata := string_data_ne_nil s hs
    have hshow : ParseDuration s = ParseDuration (String.mk s.data) := rfl
    rw [hshow, parseDuration_unfold s.data hdata] at h
    rcases hpf : parseFloatDec (trimChars s.data) with _ | num
    · simp only [hpf] at h
      rcases hht : hoursTotal (trimChars s.data) with e | hq
      · simp only [hht] at h
        exact Or.inr (Or.inr (Or.inr (Or.inl
          (hoursTotal_error_shape _ _ (hht.trans (congrArg Except.error
            (Except.error.inj h)))))))
      · rcases hmt : minutesTotal (trimChars s.data) with e | mq
        · simp only [hht, hmt] at h
          exact Or.inr (Or.inr (Or.inr (Or.inr
            (minutesTotal_error_shape _ _ (hmt.trans (congrArg Except.error
              (Except.error.inj h)))))))
        · simp only [hht, hmt] at h
          split_ifs at h with hle
          exact Or.inr (Or.inr (Or.inl (Except.error.inj h).symm))
    · simp only [hpf] at h
      split_ifs at h with hle
      exact Or.inr (Or.inl (Except.error.inj h).symm)

/-- C8 counterexample: ParseDuration "0" fails with the fixed message
"duration must be positive", which does not contain the offending input
"0" — so not every parser failure names the offending input. -/
theorem errorMessage_counterexample :
    ParseDuration "0" = .error "duration must be positive" ∧
    strContains "duration must be positive" "0" = false :=
  ⟨by decide, by decide⟩

/-- C8 amended: the commit-hash corruption errors of createEntry and
updateEntry always include the offending hash in the message (as a
substring); the duration parser's failure messages come from a fixed set
of constants (or the unreachable capture-parse branches) and need not
include the offending input. -/
theorem errorMessage_amended :
    (∀ h err, hashCorruptionError h = some err → strContains err h = true) ∧
    (∀ (s : Store) (newID : String) (now : Int) (projectID : String) (duration : Int)
      (message h : String) (invoiced : Bool) (createdAt : Int) (err : String),
      (GetProject s projectID).isOk = true → hashCorruptionError h = some err →
      CreateEntry s newID now projectID duration message h invoiced createdAt =
        .error err ∧ strContains err h = true) ∧
    (∀ (s : Store) (now : Int) (id : String) (d2 : Option Int) (m2 : Option String)
      (nh : String) (i2 : Option Bool) (c2 : Option Int) (e0 : Entry) (err : String),
      s.entries.find? (fun e => e.ID = id) = some e0 → hashCorruptionError nh = some err →
      UpdateEntry s now id d2 m2 (some nh) i2 c2 =
        .error ("failed to update entry: " ++ err) ∧
      strContains ("failed to update entry: " ++ err) nh = true) ∧
    (∀ (s : String) (err : String), ParseDuration s = .error err →
      err = "duration cannot be empty" ∨ err = "duration must be positive" ∨ err = fmtMsg ∨
      (∃ cap, err = "invalid hours value: failed to parse " ++ cap) ∨
      (∃ cap, err = "invalid minutes value: failed to parse " ++ cap)) := by
  have hkey : ∀ h err, hashCorruptionError h = some err → strContains err h = true := by
    intro h err he
    unfold hashCorruptionError at he
    split_ifs at he with hc hrep he8
    all_goals first
      | exact Option.noConfusion he
      | (rw [← Option.some.inj he]
         first
           | exact strContains_append
               "invalid commit hash: repeated pattern detected - possible corruption (hash: "
               h ")"
           | exact strContains_append
               "invalid commit hash: e8e8 corruption pattern detected (hash: " h ")")
  refine ⟨hkey, ?_, ?_, parseDuration_error_shape⟩
  · intro s newID now projectID duration message h invoiced createdAt err hp he
    exact ⟨createEntry_error_of_some _ _ _ _ _ _ _ _ _ _ hp he, hkey h err he⟩
  · intro s now id d2 m2 nh i2 c2 e0 err hfind he
    refine ⟨updateEntry_error_of_some _ _ _ _ _ _ _ _ _ _ hfind he, ?_⟩
    have := hkey nh err he
    unfold strContains at this ⊢
    rw [containsB_iff] at this ⊢
    obtain ⟨pre, post, hp⟩ := this
    exact ⟨("failed to update entry: " : String).data ++ pre, post, by simp [hp]⟩

theorem errorMessage_amended_witness :
    (hashCorruptionError "aaaaaaaaaaaaaaaaaaaaaaaaaaaaaaaaaaaaaaaa" =
      some ("invalid commit hash: repeated pattern detected - possible corruption (hash: " ++
        "aaaaaaaaaaaaaaaaaaaaaaaaaaaaaaaaaaaaaaaa" ++ ")") ∧
     strContains
      ("invalid commit hash: repeated pattern detected - possible corruption (hash: " ++
        "aaaaaaaaaaaaaaaaaaaaaaaaaaaaaaaaaaaaaaaa" ++ ")")
      "aaaaaaaaaaaaaaaaaaaaaaaaaaaaaaaaaaaaaaaa" = true) ∧
    (ParseDuration "invalid" = .error fmtMsg) :=
  ⟨⟨by decide,
    errorMessage_amended.1 "aaaaaaaaaaaaaaaaaaaaaaaaaaaaaaaaaaaaaaaa" _ (by decide)⟩,
   by decide⟩

end Clockwork
